import Mathlib

/-! JConnect: relay of a shell session through a keyed store.

A shallow embedding of the two programs of the repository,
`old/pocv1/main.go` and `old/pocv2/main.go`: the read loops that push what
they read, the poll loops that fetch a snapshot, write it in key order and
delete what they wrote, and the lifecycle of the client and server roles.

Go strings and byte slices are lists of bytes, compared byte by byte as Go
compares strings; a store location is an association list in push order;
the results of calls to the outside (reads, pushes, fetches) are inputs of
the embedded loops.
-/

namespace JConnect

/-! ## Data model -/

/-- A byte of a Go `[]byte` or `string`. -/
abbrev Byte := Fin 256

/-- A Go `string`: an arbitrary finite sequence of bytes. -/
abbrev GoString := List Byte

/-- The bytes of a text of 7-bit characters, to write keys and chunks down. -/
def ascii (s : String) : GoString := s.toList.map (fun c => Fin.ofNat c.toNat)

/-- The constant `BatchSize` of pocv2. -/
def BatchSize : Nat := 128

/-- The struct `FirebaseData` of pocv2, decoded from the field `data`. -/
structure FirebaseData where
  Data : GoString
  deriving DecidableEq, Repr

/-- A value as it lies in the store: a JSON object whose fields hold strings,
the shape of `map[string]string` given to `Push`. -/
abbrev WireValue := List (String × GoString)

/-- The value `map[string]string{"data": data}` that pocv2 hands to `Push`;
what the store keeps of it is `marshalled`. -/
def encodeData (data : GoString) : WireValue := [("data", data)]

/-- Decoding of a stored object into `FirebaseData`: the field tagged
`json:"data"` is filled when present and keeps its zero value otherwise. The
field is looked up under the name `data` as the programs write it. -/
def decodeData (v : WireValue) : FirebaseData :=
  match v.lookup "data" with
  | some d => { Data := d }
  | none => { Data := [] }

/-- The content of one store location: keys with their values, in push order. -/
abbrev StoreOf (α : Type) := List (GoString × α)

/-- The content of a store location of pocv2. -/
abbrev Store := StoreOf WireValue

/-- The decoded map handed back by `Get`: `map[string]FirebaseData`, listed in
the order in which `range` happens to iterate over it. -/
abbrev Snapshot := List (GoString × FirebaseData)

/-- Effect of `Push` on the store content when the store assigns key `k`. -/
def storePush {α : Type} (s : StoreOf α) (k : GoString) (v : α) : StoreOf α := s ++ [(k, v)]

/-- Effect of `Child(k).Delete` on the store content. -/
def storeDelete {α : Type} (s : StoreOf α) (k : GoString) : StoreOf α :=
  s.filter (fun e => e.1 != k)

/-- What a `Get` that succeeds decodes from the store content. -/
def decoded (s : Store) : Snapshot := s.map (fun e => (e.1, decodeData e.2))

/-- The call `sort.Strings(keys)`: the ascending arrangement of the keys. -/
def sortStrings (keys : List GoString) : List GoString := keys.insertionSort (· ≤ ·)

/-- The loop `for k := range m { keys = append(keys, k) }` followed by
`sort.Strings(keys)`. -/
def sortedKeys {α : Type} (m : List (GoString × α)) : List GoString :=
  sortStrings (m.map Prod.fst)

/-- The expression `outputData[k].Data`: the zero value when `k` is absent. -/
def Snapshot.dataAt (m : Snapshot) (k : GoString) : GoString :=
  match m.lookup k with
  | some d => d.Data
  | none => []

/-- What a poll loop does to the outside, in the order in which it does it. -/
inductive Effect where
  | write (chunk : GoString)
  | delete (key : GoString)
  deriving DecidableEq, Repr

/-- The payloads written, in order. -/
def writesOf : List Effect → List GoString
  | [] => []
  | Effect.write c :: es => c :: writesOf es
  | Effect.delete _ :: es => writesOf es

/-- The keys deleted, in order. -/
def deletesOf : List Effect → List GoString
  | [] => []
  | Effect.write _ :: es => deletesOf es
  | Effect.delete k :: es => k :: deletesOf es

/-- The loop `for _, k := range keys` of pocv2 `writeOutput` and `writeShell`:
each key's chunk is written, then the key is deleted from the store. -/
def writeLoop (m : Snapshot) : List GoString → Store → List Effect × Store
  | [], s => ([], s)
  | k :: ks, s =>
    let r := writeLoop m ks (storeDelete s k)
    (Effect.write (m.dataAt k) :: Effect.delete k :: r.1, r.2)

/-- The test `strings.Contains(s, sub)`. -/
def stringsContains (s sub : String) : Bool :=
  s.toList.tails.any (fun t => sub.toList.isPrefixOf t)

/-- What `Get` hands back: a decoded map and no error, or an error, whose
text is `msg`, with the map left nil. -/
inductive GetResultOf (μ : Type) where
  | ok (m : μ)
  | error (msg : String)
  deriving Repr

/-- Result of `Get` in pocv2. -/
abbrev GetResult := GetResultOf Snapshot

/-- One pass through the body of the `for` of pocv2 `writeOutput` and
`writeShell`, from the `Get` to the closing `time.Sleep`. An error whose text
does not contain "no data available" sleeps and continues; any other result
goes on with the map that `Get` left. -/
def pollOnce (r : GetResult) (s : Store) : List Effect × Store :=
  match r with
  | GetResultOf.error msg =>
    if !stringsContains msg "no data available" then ([], s)
    else writeLoop [] (sortedKeys ([] : Snapshot)) s
  | GetResultOf.ok m => writeLoop m (sortedKeys m) s

/-- The payload that a stored value carries for pocv2. -/
def payloadOf (e : GoString × WireValue) : GoString := (decodeData e.2).Data

/-- The poll loop of pocv2 `writeShell` run over the results of its successive
`Get`s: the loop has no exit, so every result given is consumed by one more
pass. The effects are on the PTY master and the input location. -/
def writeShell : List GetResult → Store → List Effect × Store
  | [], s => ([], s)
  | r :: rs, s =>
    let a := pollOnce r s
    let b := writeShell rs a.2
    (a.1 ++ b.1, b.2)

/-- The poll loop of pocv2 `writeOutput`: the same statements as `writeShell`,
with standard output and the output location. -/
def writeOutput : List GetResult → Store → List Effect × Store
  | [], s => ([], s)
  | r :: rs, s =>
    let a := pollOnce r s
    let b := writeOutput rs a.2
    (a.1 ++ b.1, b.2)

/-! ## The poll loops of pocv1 -/

/-- A JSON value as pocv1 meets it under the field `b`: a number that is a
whole value from 0 to 255, which is what pocv1 pushes, or anything else, on
which `byte(bRaw.(float64))` panics or is left to the implementation. -/
inductive JValue where
  | number (b : Byte)
  | other
  deriving DecidableEq, Repr

/-- A stored object of pocv1, decoded as `map[string]interface{}`. -/
abbrev JObject := List (String × JValue)

/-- The value `map[string]interface{}{"b": int(b)}` that pocv1 pushes. -/
def encodeByte (b : Byte) : JObject := [("b", JValue.number b)]

/-- The content of a store location of pocv1. -/
abbrev Store1 := StoreOf JObject

/-- The map `map[string]map[string]interface{}` that `Get` fills in pocv1. -/
abbrev Snapshot1 := List (GoString × JObject)

/-- The expression `outputData[k]`: the nil map when `k` is absent. -/
def objectAt (m : Snapshot1) (k : GoString) : JObject :=
  match m.lookup k with
  | some o => o
  | none => []

/-- The lookup `outputData[k]["b"]` with its flag `ok`. -/
def fieldB (m : Snapshot1) (k : GoString) : Option JValue := (objectAt m k).lookup "b"

/-- Outcome of a pocv1 poll pass: what it did, the store it left, and whether
it was cut short by the conversion of a value that is not a byte number. -/
structure Pass1 where
  effects : List Effect
  store : Store1
  crashed : Bool
  deriving Repr

/-- The loop `for _, k := range keys` of the pocv1 poll loops: an entry with a
field `b` has its byte written and is deleted, an entry without is passed
over. -/
def writeLoop1 (m : Snapshot1) : List GoString → Store1 → Pass1
  | [], s => { effects := [], store := s, crashed := false }
  | k :: ks, s =>
    match fieldB m k with
    | none => writeLoop1 m ks s
    | some JValue.other => { effects := [], store := s, crashed := true }
    | some (JValue.number b) =>
      let r := writeLoop1 m ks (storeDelete s k)
      { r with effects := Effect.write [b] :: Effect.delete k :: r.effects }

/-- What the body of the pocv1 range loop does for the key `k` when the field
`b`, if there is one, holds a byte number. -/
def entryEffects1 (m : Snapshot1) (k : GoString) : List Effect :=
  match fieldB m k with
  | some (JValue.number b) => [Effect.write [b], Effect.delete k]
  | _ => []

/-- The error text that the pocv1 poll loops let through. -/
def unmarshalBoolMsg : String :=
  "cannot unmarshal bool into Go value of type map[string]map[string]interface {}"

/-- One pass through the body of the `for` of a pocv1 poll loop. -/
def pollOnce1 (r : GetResultOf Snapshot1) (s : Store1) : Pass1 :=
  match r with
  | GetResultOf.error msg =>
    if msg != unmarshalBoolMsg then { effects := [], store := s, crashed := false }
    else writeLoop1 [] (sortedKeys ([] : Snapshot1)) s
  | GetResultOf.ok m => writeLoop1 m (sortedKeys m) s

/-- The poll loop of pocv1 run over the results of its successive `Get`s; it
goes on until a pass crashes. -/
def pollLoop1 : List (GetResultOf Snapshot1) → Store1 → Pass1
  | [], s => { effects := [], store := s, crashed := false }
  | r :: rs, s =>
    let a := pollOnce1 r s
    if a.crashed then a
    else
      let b := pollLoop1 rs a.store
      { b with effects := a.effects ++ b.effects }

/-! ## The read loops -/

/-- The error that a `Read` returned: `io.EOF` or any other. -/
inductive ReadError where
  | eof
  | other
  deriving DecidableEq, Repr

/-- What one call `Read(buf)` returned: the bytes `buf[:n]` and the error. -/
structure ReadResult where
  data : GoString
  err : Option ReadError
  deriving DecidableEq, Repr

/-- A read that brought `c` and no error. -/
def ReadResult.chunk (c : GoString) : ReadResult := { data := c, err := none }

/-- A read that brought nothing but the error `e`. -/
def ReadResult.failed (e : ReadError) : ReadResult := { data := [], err := some e }

/-- The outcome of the next `Push`, taken from the outcomes that the store has
in stock (true: stored); a store with none left in stock stores. -/
def nextOutcome : List Bool → Bool × List Bool
  | [] => (true, [])
  | b :: bs => (b, bs)

/-- A run of a read loop: each call of `Push` with the value given and whether
the store kept it, and whether the loop has left its `for`. -/
structure ReadRun (α : Type) where
  pushes : List (α × Bool)
  exited : Bool
  deriving Repr

/-- The values handed to `Push`, in order. -/
def ReadRun.attempted {α : Type} (r : ReadRun α) : List α := r.pushes.map Prod.fst

/-- The values that the store kept, in order. -/
def ReadRun.stored {α : Type} (r : ReadRun α) : List α :=
  (r.pushes.filter Prod.snd).map Prod.fst

/-- One more push in front of a run. -/
def ReadRun.cons {α : Type} (p : α × Bool) (r : ReadRun α) : ReadRun α :=
  { r with pushes := p :: r.pushes }

/-- The loop of pocv2 `readInput` over the results of its successive reads of
standard input: `io.EOF` breaks, any other error continues, a read of n > 0
bytes pushes them, and what `Push` returns is not looked at. -/
def readInput : List ReadResult → List Bool → ReadRun WireValue
  | [], _ => { pushes := [], exited := false }
  | r :: rs, os =>
    match r.err with
    | some ReadError.eof => { pushes := [], exited := true }
    | some ReadError.other => readInput rs os
    | none =>
      if 0 < r.data.length then
        ReadRun.cons (encodeData r.data, (nextOutcome os).1) (readInput rs (nextOutcome os).2)
      else readInput rs os

/-- The loop of pocv2 `readShell` over the results of its successive reads of
the PTY master: n > 0 bytes are pushed first, then any error breaks. -/
def readShell : List ReadResult → List Bool → ReadRun WireValue
  | [], _ => { pushes := [], exited := false }
  | r :: rs, os =>
    if 0 < r.data.length then
      ReadRun.cons (encodeData r.data, (nextOutcome os).1)
        (if r.err.isSome then { pushes := [], exited := true }
         else readShell rs (nextOutcome os).2)
    else if r.err.isSome then { pushes := [], exited := true }
    else readShell rs os

/-- The read loop of pocv1 `runClient`, with its buffer of one byte: an error
or n = 0 breaks, the byte `buf[0]` is pushed, and a failed `Push` breaks. -/
def clientReadLoop1 : List ReadResult → List Bool → ReadRun JObject
  | [], _ => { pushes := [], exited := false }
  | r :: rs, os =>
    if r.err.isSome then { pushes := [], exited := true }
    else
      match r.data with
      | [] => { pushes := [], exited := true }
      | b :: _ =>
        if (nextOutcome os).1 then
          ReadRun.cons (encodeByte b, true) (clientReadLoop1 rs (nextOutcome os).2)
        else { pushes := [(encodeByte b, false)], exited := true }

/-- The inner loop `for i := 0; i < n; i++` of the pocv1 server read loop: one
push per byte, left at the first `Push` that fails. -/
def pushBytes1 : List Byte → List Bool → List (JObject × Bool) × List Bool
  | [], os => ([], os)
  | b :: bs, os =>
    if (nextOutcome os).1 then
      ((encodeByte b, true) :: (pushBytes1 bs (nextOutcome os).2).1,
        (pushBytes1 bs (nextOutcome os).2).2)
    else ([(encodeByte b, false)], (nextOutcome os).2)

/-- The read loop of pocv1 `runServer`: an error breaks before anything of that
read is pushed, otherwise the bytes read go through the inner loop. -/
def serverReadLoop1 : List ReadResult → List Bool → ReadRun JObject
  | [], _ => { pushes := [], exited := false }
  | r :: rs, os =>
    if r.err.isSome then { pushes := [], exited := true }
    else
      let rest := serverReadLoop1 rs (pushBytes1 r.data os).2
      { rest with pushes := (pushBytes1 r.data os).1 ++ rest.pushes }

/-- The results of the reads up to and including the first that carries an
error. -/
def throughFirstError : List ReadResult → List ReadResult
  | [] => []
  | r :: rs => if r.err.isSome then [r] else r :: throughFirstError rs

/-- The chunks, out of those given, that are not empty. -/
def nonEmptyChunks (cs : List GoString) : List GoString :=
  cs.filter (fun c => decide (0 < c.length))

/-- The chunks that a run handed to `Push`, read back from the wire values. -/
def pushedChunks (r : ReadRun WireValue) : List GoString :=
  r.attempted.map (fun v => (decodeData v).Data)

/-- The chunks that the store kept from a run, read back from the wire values. -/
def storedChunks (r : ReadRun WireValue) : List GoString :=
  r.stored.map (fun v => (decodeData v).Data)

/-- The results of the reads before the first that carries `io.EOF`. -/
def beforeEOF : List ReadResult → List ReadResult
  | [] => []
  | r :: rs => if r.err = some ReadError.eof then [] else r :: beforeEOF rs

/-- The chunks brought by the reads that carry no error. -/
def cleanChunks (rs : List ReadResult) : List GoString :=
  (rs.filter (fun r => r.err.isNone)).map (fun r => r.data)

/-- The outcomes that the first `n` calls of `Push` meet, one each. -/
def outcomesFor : Nat → List Bool → List Bool
  | 0, _ => []
  | n + 1, os => (nextOutcome os).1 :: outcomesFor n (nextOutcome os).2

/-! ## The roles and their two loops -/

/-- Where control goes at the end of a pass through the body of a `for`: back
to the head of the loop, or out of the loop. -/
inductive Flow where
  | next
  | leave
  deriving DecidableEq, Repr

/-- Control at the end of a pass of pocv2 `writeOutput` and `writeShell`, given
the error text of the `Get`, if any: the branch of the error that is not let
through ends in `continue`, the other paths run to the end of the body; the
body has no `break` and no `return`. -/
def pollFlow (err : Option String) : Flow :=
  match err with
  | some msg => if !stringsContains msg "no data available" then Flow.next else Flow.next
  | none => Flow.next

/-- Control at the end of a pass of a pocv1 poll loop, given the error text of
the `Get`, if any. -/
def pollFlow1 (err : Option String) : Flow :=
  match err with
  | some msg => if msg != unmarshalBoolMsg then Flow.next else Flow.next
  | none => Flow.next

/-- Runs a step function over a list of events; `none` when an event comes
that the state does not allow. -/
def runEvents {σ ε : Type} (step : σ → ε → Option σ) : σ → List ε → Option σ
  | s, [] => some s
  | s, e :: es =>
    match step s e with
    | some s' => runEvents step s' es
    | none => none

/-- Where the goroutine of a read loop stands. -/
inductive ReaderPc where
  | notStarted
  | reading
  | finished
  deriving DecidableEq, Repr

/-- Where a poll loop stands: inside its `for`, which has neither `break` nor
`return`, or at the point after the `for`. -/
inductive PollPc where
  | notStarted
  | polling
  | afterLoop
  deriving DecidableEq, Repr

/-- Where the function of the server role stands. -/
inductive ServerPc where
  | atSession
  | atPtyStart
  | inLoops
  | returned
  deriving DecidableEq, Repr

/-- State of a server role. `wg` is the counter of the `sync.WaitGroup` of
pocv1, `ptyClosed` tells that `ptmx.Close()` was called, `exited` that the
process has ended. -/
structure Server where
  main : ServerPc
  reader : ReaderPc
  poller : PollPc
  wg : Nat
  ptyClosed : Bool
  exited : Bool
  deriving DecidableEq, Repr

/-- What can happen in a server role. -/
inductive ServerEvent where
  | sessionOk
  | sessionFailed
  | ptyStarted
  | ptyStartFailed
  | ptyRead (r : ReadResult) (os : List Bool)
  | pollPass (err : Option String)
  | roleReturns
  | mainReturns
  deriving Repr

/-- Start of pocv2 `serverMode`. -/
def serverInit2 : Server :=
  { main := ServerPc.atSession, reader := ReaderPc.notStarted, poller := PollPc.notStarted,
    wg := 0, ptyClosed := false, exited := false }

/-- Steps of pocv2 `serverMode`: a failed set-up calls `os.Exit(1)`; after
`pty.Start` the function registers `defer ptmx.Close()`, starts `readShell` as
a goroutine and calls `writeShell`; a read that makes `readShell` leave its
`for` ends the goroutine; a pass of `writeShell` goes where `pollFlow` says; the
function returns, and runs the deferred close, once the call of `writeShell`
has come to the point after its `for`. -/
def serverMode (s : Server) (e : ServerEvent) : Option Server :=
  if s.exited then none
  else
    match e with
    | ServerEvent.sessionOk =>
      if s.main = ServerPc.atSession then some { s with main := ServerPc.atPtyStart } else none
    | ServerEvent.sessionFailed =>
      if s.main = ServerPc.atSession then some { s with exited := true } else none
    | ServerEvent.ptyStarted =>
      if s.main = ServerPc.atPtyStart then
        some { s with main := ServerPc.inLoops, reader := ReaderPc.reading,
                      poller := PollPc.polling }
      else none
    | ServerEvent.ptyStartFailed =>
      if s.main = ServerPc.atPtyStart then some { s with exited := true } else none
    | ServerEvent.ptyRead r os =>
      if s.reader = ReaderPc.reading then
        some { s with reader :=
          if (readShell [r] os).exited then ReaderPc.finished else ReaderPc.reading }
      else none
    | ServerEvent.pollPass err =>
      if s.poller = PollPc.polling then
        match pollFlow err with
        | Flow.next => some s
        | Flow.leave => some { s with poller := PollPc.afterLoop }
      else none
    | ServerEvent.roleReturns =>
      if s.main = ServerPc.inLoops ∧ s.poller = PollPc.afterLoop then
        some { s with main := ServerPc.returned, ptyClosed := true }
      else none
    | ServerEvent.mainReturns =>
      if s.main = ServerPc.returned then some { s with exited := true } else none

/-- Start of pocv1 `runServer`, the store client being set up by `main`. -/
def serverInit1 : Server :=
  { main := ServerPc.atPtyStart, reader := ReaderPc.notStarted, poller := PollPc.notStarted,
    wg := 0, ptyClosed := false, exited := false }

/-- Steps of pocv1 `runServer`: a failed `pty.Start` panics; after it the
function registers the deferred close, adds 2 to the wait group, starts both
loops as goroutines and waits; a loop that leaves its `for` calls `wg.Done()`;
`wg.Wait()` lets the function return once the counter is 0. -/
def runServer (s : Server) (e : ServerEvent) : Option Server :=
  if s.exited then none
  else
    match e with
    | ServerEvent.sessionOk => none
    | ServerEvent.sessionFailed => none
    | ServerEvent.ptyStarted =>
      if s.main = ServerPc.atPtyStart then
        some { s with main := ServerPc.inLoops, reader := ReaderPc.reading,
                      poller := PollPc.polling, wg := 2 }
      else none
    | ServerEvent.ptyStartFailed =>
      if s.main = ServerPc.atPtyStart then some { s with exited := true } else none
    | ServerEvent.ptyRead r os =>
      if s.reader = ReaderPc.reading then
        if (serverReadLoop1 [r] os).exited then
          some { s with reader := ReaderPc.finished, wg := s.wg - 1 }
        else some s
      else none
    | ServerEvent.pollPass err =>
      if s.poller = PollPc.polling then
        match pollFlow1 err with
        | Flow.next => some s
        | Flow.leave => some { s with poller := PollPc.afterLoop, wg := s.wg - 1 }
      else none
    | ServerEvent.roleReturns =>
      if s.main = ServerPc.inLoops ∧ s.wg = 0 then
        some { s with main := ServerPc.returned, ptyClosed := true }
      else none
    | ServerEvent.mainReturns =>
      if s.main = ServerPc.returned then some { s with exited := true } else none

/-- What holds of a pocv2 server at every point of a run: the deferred close
has not run, the function has not returned, and `writeShell` is not past its
`for`. -/
def ServerInv2 (s : Server) : Prop :=
  s.ptyClosed = false ∧ s.main ≠ ServerPc.returned ∧ s.poller ≠ PollPc.afterLoop
  ∧ (s.main = ServerPc.inLoops →
      s.exited = false ∧ s.poller = PollPc.polling ∧ s.reader ≠ ReaderPc.notStarted)
  ∧ (s.main ≠ ServerPc.inLoops → s.reader = ReaderPc.notStarted)

/-- What holds of a pocv1 server at every point of a run: as for pocv2, and
the wait group still counts the poll loop. -/
def ServerInv1 (s : Server) : Prop :=
  s.ptyClosed = false ∧ s.main ≠ ServerPc.returned ∧ s.poller ≠ PollPc.afterLoop
  ∧ (s.main = ServerPc.inLoops →
      s.exited = false ∧ s.poller = PollPc.polling
      ∧ ((s.reader = ReaderPc.reading ∧ s.wg = 2) ∨ (s.reader = ReaderPc.finished ∧ s.wg = 1)))
  ∧ (s.main ≠ ServerPc.inLoops → s.reader = ReaderPc.notStarted)

/-- The two programs. -/
inductive Version where
  | pocv1
  | pocv2
  deriving DecidableEq, Repr

/-- Configuration of the terminal: the one found at start, or raw mode. -/
inductive TermState where
  | original
  | raw
  deriving DecidableEq, Repr

/-- Where the function of the client role stands. -/
inductive ClientPc where
  | atSession
  | atMakeRaw
  | atNotify
  | inLoops
  | returning
  | returned
  deriving DecidableEq, Repr

/-- Where the goroutine of the signal handler stands: not started, blocked on
`<-c`, past the receive, past its `term.Restore`. -/
inductive HandlerPc where
  | notStarted
  | waiting
  | signalled
  | restored
  deriving DecidableEq, Repr

/-- State of a client role. `term` is the configuration of the terminal,
`saved` the `oldState` that `term.MakeRaw` returned, `restores` the states
given to the calls of `term.Restore` so far, `exited` the exit code once the
process has ended. -/
structure Client where
  main : ClientPc
  handler : HandlerPc
  reader : ReaderPc
  poller : PollPc
  wg : Nat
  term : TermState
  saved : Option TermState
  restores : List TermState
  exited : Option Nat
  deriving DecidableEq, Repr

/-- What can happen in a client role. -/
inductive ClientEvent where
  | sessionOk
  | sessionFailed
  | makeRawOk
  | makeRawFailed
  | loopsStarted
  | signalReceived
  | handlerRestores
  | handlerExits
  | stdinRead (r : ReadResult) (os : List Bool)
  | pollPass (err : Option String)
  | roleReturns
  | deferredRestore
  | mainReturns
  deriving Repr

/-- Start of the client role: pocv2 `clientMode` sets the store client up
itself, for pocv1 `runClient` it is set up by `main`. -/
def clientInit (v : Version) : Client :=
  { main := match v with
      | Version.pocv2 => ClientPc.atSession
      | Version.pocv1 => ClientPc.atMakeRaw,
    handler := HandlerPc.notStarted, reader := ReaderPc.notStarted,
    poller := PollPc.notStarted, wg := 0, term := TermState.original, saved := none,
    restores := [], exited := none }

/-- The call `term.Restore(fd, oldState)`. -/
def Client.restore (s : Client) : Option Client :=
  match s.saved with
  | some o => some { s with term := o, restores := s.restores ++ [o] }
  | none => none

/-- The call that holds the function back has returned: `writeOutput()` in
pocv2, which takes leaving its `for`, and `wg.Wait()` in pocv1. -/
def Client.loopsOver (s : Client) (v : Version) : Bool :=
  match v with
  | Version.pocv2 => decide (s.poller = PollPc.afterLoop)
  | Version.pocv1 => decide (s.wg = 0)

/-- Steps of the client role. A failed set-up ends the process (`os.Exit(1)`,
or a panic in pocv1) before raw mode is on. `term.MakeRaw` hands back the
configuration found and puts the terminal in raw mode; then the function
registers the deferred restore, starts the handler and the loops. The handler
receives a signal from `c`, calls `term.Restore`, then `os.Exit`. A read that
makes the read loop leave its `for` ends its goroutine (`wg.Done()` in pocv1).
The function returns once `writeOutput` is past its `for` (pocv2) or the wait
group is at 0 (pocv1); it then runs the deferred restore, and `main` returns. -/
def clientStep (v : Version) (s : Client) (e : ClientEvent) : Option Client :=
  if s.exited.isSome then none
  else
    match e with
    | ClientEvent.sessionOk =>
      if s.main = ClientPc.atSession then some { s with main := ClientPc.atMakeRaw } else none
    | ClientEvent.sessionFailed =>
      if s.main = ClientPc.atSession then some { s with exited := some 1 } else none
    | ClientEvent.makeRawOk =>
      if s.main = ClientPc.atMakeRaw then
        some { s with main := ClientPc.atNotify, saved := some s.term, term := TermState.raw }
      else none
    | ClientEvent.makeRawFailed =>
      if s.main = ClientPc.atMakeRaw then
        some { s with exited := some (match v with
          | Version.pocv2 => 1
          | Version.pocv1 => 2) }
      else none
    | ClientEvent.loopsStarted =>
      if s.main = ClientPc.atNotify then
        some { s with main := ClientPc.inLoops, handler := HandlerPc.waiting,
                      reader := ReaderPc.reading, poller := PollPc.polling,
                      wg := match v with
                        | Version.pocv2 => s.wg
                        | Version.pocv1 => 2 }
      else none
    | ClientEvent.signalReceived =>
      if s.handler = HandlerPc.waiting then some { s with handler := HandlerPc.signalled }
      else none
    | ClientEvent.handlerRestores =>
      if s.handler = HandlerPc.signalled then
        s.restore.map (fun t => { t with handler := HandlerPc.restored })
      else none
    | ClientEvent.handlerExits =>
      if s.handler = HandlerPc.restored then
        some { s with exited := some (match v with
          | Version.pocv2 => 1
          | Version.pocv1 => 0) }
      else none
    | ClientEvent.stdinRead r os =>
      if s.reader = ReaderPc.reading then
        match v with
        | Version.pocv2 =>
          if (readInput [r] os).exited then some { s with reader := ReaderPc.finished }
          else some s
        | Version.pocv1 =>
          if (clientReadLoop1 [r] os).exited then
            some { s with reader := ReaderPc.finished, wg := s.wg - 1 }
          else some s
      else none
    | ClientEvent.pollPass err =>
      if s.poller = PollPc.polling then
        match v with
        | Version.pocv2 =>
          match pollFlow err with
          | Flow.next => some s
          | Flow.leave => some { s with poller := PollPc.afterLoop }
        | Version.pocv1 =>
          match pollFlow1 err with
          | Flow.next => some s
          | Flow.leave => some { s with poller := PollPc.afterLoop, wg := s.wg - 1 }
      else none
    | ClientEvent.roleReturns =>
      if s.main = ClientPc.inLoops ∧ s.loopsOver v = true then
        some { s with main := ClientPc.returning }
      else none
    | ClientEvent.deferredRestore =>
      if s.main = ClientPc.returning then
        s.restore.map (fun t => { t with main := ClientPc.returned })
      else none
    | ClientEvent.mainReturns =>
      if s.main = ClientPc.returned then some { s with exited := some 0 } else none

/-- Steps of pocv2 `clientMode`. -/
abbrev clientMode : Client → ClientEvent → Option Client := clientStep Version.pocv2

/-- Steps of pocv1 `runClient`. -/
abbrev runClient : Client → ClientEvent → Option Client := clientStep Version.pocv1

/-- The terminal is back in the configuration that `term.MakeRaw` saved, by a
call of `term.Restore` with that configuration. -/
def Client.Restored (s : Client) : Prop :=
  ∀ o, s.saved = some o → s.term = o ∧ o ∈ s.restores

/-- Invariant of the client role: raw mode is acquired exactly from the point
after `term.MakeRaw` on, the handler and the return path exist only after it,
the process ends only before raw mode is acquired, or with the handler
past its restore, or with the function past its deferred restore, and in
these last two cases the terminal is restored. -/
def ClientInv (s : Client) : Prop :=
  (s.saved = none ↔ (s.main = ClientPc.atSession ∨ s.main = ClientPc.atMakeRaw))
  ∧ (s.saved = none → s.handler = HandlerPc.notStarted ∧ s.term = TermState.original)
  ∧ (∀ o, s.saved = some o → o = TermState.original)
  ∧ (s.exited.isSome = true →
      s.saved = none ∨ s.handler = HandlerPc.restored ∨ s.main = ClientPc.returned)
  ∧ ((s.exited.isSome = true ∨ s.handler = HandlerPc.restored ∨ s.main = ClientPc.returned) →
      s.Restored)

/-! ## A producer and a consumer on one store location -/

/-- Where the poll loop of the consumer stands within a pass: at the head of
its `for`, before `Get`; in the range loop, before the write of the chunk of
the first key left, or past the range loop when no key is left; or between the
write of the chunk of `k` and the delete of `k`. -/
inductive Phase where
  | idle
  | writing (m : Snapshot) (ks : List GoString)
  | deleting (m : Snapshot) (k : GoString) (ks : List GoString)
  deriving DecidableEq, Repr

/-- A store location with the read loop that pushes to it and the poll loop
that drains it: the store content, the key given out by the latest push, the
chunks pushed so far, the chunks written so far, and the consumer's phase. -/
structure Relay where
  store : Store
  lastKey : Option GoString
  pushed : List GoString
  written : List GoString
  phase : Phase
  deriving DecidableEq, Repr

/-- The steps of the producer and of the consumer. -/
inductive RelayEvent where
  | push (k : GoString) (chunk : GoString)
  | get (r : GetResult)
  | write
  | delete
  | sleep

/-- The event is a push. -/
def RelayEvent.isPush : RelayEvent → Bool
  | RelayEvent.push _ _ => true
  | _ => false

/-- No event of the list is a push. -/
def noPush (es : List RelayEvent) : Bool := es.all (fun e => !e.isPush)

/-- An empty location and a consumer about to poll. -/
def relayInit : Relay :=
  { store := [], lastKey := none, pushed := [], written := [], phase := Phase.idle }

/-- The key `k` lies above the key given out by the latest push. -/
def freshKey (last : Option GoString) (k : GoString) : Bool :=
  match last with
  | none => true
  | some l => decide (l < k)

/-- Steps of a producer and a consumer that share a store location. A push
stores `{"data": chunk}` under a key above all keys given out before. A `Get`
that succeeds hands the consumer the store content as it is then, as a map
iterated in any order, and the consumer sorts its keys; a `Get` that fails
leaves the map nil, and the pass is skipped or runs over no key. Then, key by
key, the consumer writes the chunk and deletes the key, and sleeps when no key
is left. -/
def relayStep (c : Relay) (e : RelayEvent) : Option Relay :=
  match e with
  | RelayEvent.push k chunk =>
    if freshKey c.lastKey k then
      some { c with store := storePush c.store k (encodeData chunk), lastKey := some k,
                    pushed := c.pushed ++ [chunk] }
    else none
  | RelayEvent.get r =>
    match c.phase with
    | Phase.idle =>
      match r with
      | GetResultOf.ok m =>
        if m.Perm (decoded c.store) then some { c with phase := Phase.writing m (sortedKeys m) }
        else none
      | GetResultOf.error msg =>
        if !stringsContains msg "no data available" then some c
        else some { c with phase := Phase.writing [] (sortedKeys ([] : Snapshot)) }
    | _ => none
  | RelayEvent.write =>
    match c.phase with
    | Phase.writing m (k :: ks) =>
      some { c with written := c.written ++ [m.dataAt k], phase := Phase.deleting m k ks }
    | _ => none
  | RelayEvent.delete =>
    match c.phase with
    | Phase.deleting m k ks =>
      some { c with store := storeDelete c.store k, phase := Phase.writing m ks }
    | _ => none
  | RelayEvent.sleep =>
    match c.phase with
    | Phase.writing _ [] => some { c with phase := Phase.idle }
    | _ => none

/-- The events by which the consumer, left alone, ends the range loop over the
keys `ks` and its pass. -/
def restOfRange (ks : List GoString) : List RelayEvent :=
  ks.flatMap (fun _ => [RelayEvent.write, RelayEvent.delete]) ++ [RelayEvent.sleep]

/-- The events by which the consumer, left alone, ends the pass it is in. -/
def finishPass : Phase → List RelayEvent
  | Phase.idle => []
  | Phase.writing _ ks => restOfRange ks
  | Phase.deleting _ _ ks => RelayEvent.delete :: restOfRange ks

/-- Invariant of the relay. The keys in the store ascend in push order and
none lies above the latest key given out. The chunks pushed are the chunks
written followed by the chunks still in the store; within a pass the store
begins with the entries of the keys left to process, of which the snapshot
holds the chunks, and between a write and its delete the chunk last written is
that of the first entry of the store. -/
def RelayInv (c : Relay) : Prop :=
  (c.store.map Prod.fst).Sorted (· < ·)
  ∧ (∀ k ∈ c.store.map Prod.fst, ∃ l, c.lastKey = some l ∧ k ≤ l)
  ∧ match c.phase with
    | Phase.idle => c.pushed = c.written ++ c.store.map payloadOf
    | Phase.writing m ks =>
      ∃ rem later, c.store = rem ++ later ∧ rem.map Prod.fst = ks
        ∧ (∀ e ∈ rem, m.dataAt e.1 = payloadOf e)
        ∧ c.pushed = c.written ++ c.store.map payloadOf
    | Phase.deleting m k ks =>
      ∃ e rem later w, c.store = e :: (rem ++ later) ∧ e.1 = k ∧ rem.map Prod.fst = ks
        ∧ (∀ e' ∈ rem, m.dataAt e'.1 = payloadOf e')
        ∧ c.written = w ++ [payloadOf e]
        ∧ c.pushed = w ++ c.store.map payloadOf

/-- The consumer has caught up with the producer: the store holds nothing but
the entries of the keys that the pass under way still has to process. -/
def CaughtUp (c : Relay) : Prop :=
  match c.phase with
  | Phase.idle => c.store = []
  | Phase.writing _ ks => c.store.map Prod.fst = ks
  | Phase.deleting _ k ks => c.store.map Prod.fst = k :: ks

/-! ## The chunk as the store keeps it -/

end JConnect

/-! ## Theorems -/

namespace JConnect

/-! ### Sorting of keys -/

theorem sortStrings_sorted (ks : List GoString) : (sortStrings ks).Sorted (· ≤ ·) :=
  List.sorted_insertionSort (· ≤ ·) ks

theorem sortStrings_perm (ks : List GoString) : (sortStrings ks).Perm ks :=
  List.perm_insertionSort (· ≤ ·) ks

theorem sortStrings_strict (ks : List GoString) (h : ks.Nodup) :
    (sortStrings ks).Sorted (· < ·) :=
  (sortStrings_sorted ks).lt_of_le ((sortStrings_perm ks).nodup_iff.mpr h)

theorem sortStrings_congr {ks ks' : List GoString} (h : ks.Perm ks') :
    sortStrings ks = sortStrings ks' :=
  List.eq_of_perm_of_sorted
    (((sortStrings_perm ks).trans h).trans (sortStrings_perm ks').symm)
    (sortStrings_sorted ks) (sortStrings_sorted ks')

theorem sortedKeys_congr {α : Type} {m m' : List (GoString × α)} (h : m.Perm m') :
    sortedKeys m = sortedKeys m' :=
  sortStrings_congr (h.map _)

/-! ### Lookup in a map listed in some order -/

theorem lookup_of_mem {α : Type} {m : List (GoString × α)} (hn : (m.map Prod.fst).Nodup)
    {k : GoString} {v : α} (h : (k, v) ∈ m) : m.lookup k = some v := by
  induction m with
  | nil => simp at h
  | cons e m ih =>
    obtain ⟨k', v'⟩ := e
    simp only [List.map_cons, List.nodup_cons, List.mem_map, not_exists, not_and] at hn
    rcases List.mem_cons.mp h with h1 | h1
    · cases h1
      simp [List.lookup]
    · have hne : k ≠ k' := by
        intro hk
        subst hk
        exact hn.1 (k, v) h1 rfl
      have hb : (k == k') = false := by simpa using hne
      simp only [List.lookup, hb]
      exact ih hn.2 h1

theorem lookup_none_of_not_mem {α : Type} {m : List (GoString × α)} {k : GoString}
    (h : k ∉ m.map Prod.fst) : m.lookup k = none := by
  induction m with
  | nil => rfl
  | cons e m ih =>
    obtain ⟨k', v'⟩ := e
    simp only [List.map_cons, List.mem_cons, not_or] at h
    have hb : (k == k') = false := by simpa using h.1
    simp only [List.lookup, hb]
    exact ih h.2

theorem lookup_perm {α : Type} {m m' : List (GoString × α)} (hp : m.Perm m')
    (hn : (m.map Prod.fst).Nodup) (k : GoString) : m.lookup k = m'.lookup k := by
  have hn' : (m'.map Prod.fst).Nodup := (hp.map Prod.fst).nodup_iff.mp hn
  by_cases hk : k ∈ m.map Prod.fst
  · obtain ⟨e, he, rfl⟩ := List.mem_map.mp hk
    obtain ⟨k, v⟩ := e
    rw [lookup_of_mem hn he, lookup_of_mem hn' (hp.mem_iff.mp he)]
  · have hk' : k ∉ m'.map Prod.fst := fun h => hk ((hp.map Prod.fst).mem_iff.mpr h)
    rw [lookup_none_of_not_mem hk, lookup_none_of_not_mem hk']

theorem dataAt_of_mem {m : Snapshot} (hn : (m.map Prod.fst).Nodup) {e : GoString × FirebaseData}
    (h : e ∈ m) : m.dataAt e.1 = e.2.Data := by
  obtain ⟨k, d⟩ := e
  simp [Snapshot.dataAt, lookup_of_mem hn h]

theorem dataAt_perm {m m' : Snapshot} (hp : m.Perm m') (hn : (m.map Prod.fst).Nodup)
    (k : GoString) : m.dataAt k = m'.dataAt k := by
  simp [Snapshot.dataAt, lookup_perm hp hn k]

/-! ### The range loop of pocv2 -/

theorem writeLoop_effects (m : Snapshot) (ks : List GoString) (s : Store) :
    (writeLoop m ks s).1 = ks.flatMap (fun k => [Effect.write (m.dataAt k), Effect.delete k]) := by
  induction ks generalizing s with
  | nil => rfl
  | cons k ks ih =>
    simp only [writeLoop, ih, List.flatMap_cons, List.cons_append, List.nil_append]

theorem writeLoop_store (m : Snapshot) (ks : List GoString) (s : Store) :
    (writeLoop m ks s).2 = s.filter (fun e => decide (e.1 ∉ ks)) := by
  induction ks generalizing s with
  | nil => simp [writeLoop]
  | cons k ks ih =>
    simp only [writeLoop, ih, storeDelete, List.filter_filter]
    apply List.filter_congr
    intro e _
    by_cases h1 : e.1 = k <;> by_cases h2 : e.1 ∈ ks <;> simp [h1, h2]

theorem writesOf_bind (f : GoString → GoString) (ks : List GoString) :
    writesOf (ks.flatMap (fun k => [Effect.write (f k), Effect.delete k])) = ks.map f := by
  induction ks with
  | nil => rfl
  | cons k ks ih =>
    rw [List.flatMap_cons]
    show writesOf (Effect.write (f k) :: Effect.delete k :: ks.flatMap _) = _
    rw [writesOf, writesOf, ih, List.map_cons]

theorem deletesOf_bind (f : GoString → GoString) (ks : List GoString) :
    deletesOf (ks.flatMap (fun k => [Effect.write (f k), Effect.delete k])) = ks := by
  induction ks with
  | nil => rfl
  | cons k ks ih =>
    rw [List.flatMap_cons]
    show deletesOf (Effect.write (f k) :: Effect.delete k :: ks.flatMap _) = _
    rw [deletesOf, deletesOf, ih]

theorem writesOf_append (a b : List Effect) : writesOf (a ++ b) = writesOf a ++ writesOf b := by
  induction a with
  | nil => rfl
  | cons e a ih => cases e <;> simp [writesOf, ih]

theorem pollOnce_perm {m m' : Snapshot} (hp : m'.Perm m) (hn : (m.map Prod.fst).Nodup)
    (s : Store) : pollOnce (GetResultOf.ok m') s = pollOnce (GetResultOf.ok m) s := by
  have hn' : (m'.map Prod.fst).Nodup := (hp.map Prod.fst).nodup_iff.mpr hn
  have hk : sortedKeys m' = sortedKeys m := sortedKeys_congr hp
  have hd : m'.dataAt = m.dataAt := funext (dataAt_perm hp hn')
  apply Prod.ext
  · simp only [pollOnce, writeLoop_effects, hk, hd]
  · simp only [pollOnce, writeLoop_store, hk]

theorem decoded_keys (s : Store) : (decoded s).map Prod.fst = s.map Prod.fst := by
  simp [decoded, Function.comp_def]

theorem sortedKeys_perm_store {m : Snapshot} {pre : Store} (hm : m.Perm (decoded pre)) :
    (sortedKeys m).Perm (pre.map Prod.fst) := by
  have h1 : (sortedKeys m).Perm (m.map Prod.fst) := sortStrings_perm _
  have h2 : (m.map Prod.fst).Perm ((decoded pre).map Prod.fst) := hm.map _
  rw [decoded_keys] at h2
  exact h1.trans h2

theorem dataAt_decoded {pre : Store} (hn : (pre.map Prod.fst).Nodup)
    {e : GoString × WireValue} (h : e ∈ pre) : (decoded pre).dataAt e.1 = payloadOf e := by
  have hn' : ((decoded pre).map Prod.fst).Nodup := by rw [decoded_keys]; exact hn
  have hmem : (e.1, decodeData e.2) ∈ decoded pre := List.mem_map.mpr ⟨e, h, rfl⟩
  exact dataAt_of_mem hn' hmem

/-- One pass of pocv2 over a store made of the entries `pre` that the snapshot
saw and the entries `later` pushed after it. -/
theorem pollOnce_snapshot (pre later : Store) (m : Snapshot)
    (hn : ((pre ++ later).map Prod.fst).Nodup) (hm : m.Perm (decoded pre)) :
    (writesOf (pollOnce (GetResultOf.ok m) (pre ++ later)).1).Perm (pre.map payloadOf)
    ∧ (deletesOf (pollOnce (GetResultOf.ok m) (pre ++ later)).1).Perm (pre.map Prod.fst)
    ∧ (pollOnce (GetResultOf.ok m) (pre ++ later)).2 = later := by
  rw [List.map_append, List.nodup_append] at hn
  obtain ⟨hpre, _, hdis⟩ := hn
  have hk := sortedKeys_perm_store hm
  have hnm : (m.map Prod.fst).Nodup := by
    have := (hm.map Prod.fst).nodup_iff.mpr (by rw [decoded_keys]; exact hpre)
    exact this
  refine ⟨?_, ?_, ?_⟩
  · simp only [pollOnce, writeLoop_effects, writesOf_bind]
    refine (hk.map _).trans ?_
    rw [List.map_map]
    apply List.Perm.of_eq
    apply List.map_congr_left
    intro e he
    show m.dataAt e.1 = payloadOf e
    rw [dataAt_perm hm hnm]
    exact dataAt_decoded hpre he
  · simp only [pollOnce, writeLoop_effects, deletesOf_bind]
    exact hk
  · simp only [pollOnce, writeLoop_store, List.filter_append]
    have h1 : pre.filter (fun e => decide (e.1 ∉ sortedKeys m)) = [] := by
      rw [List.filter_eq_nil_iff]
      intro e he
      have : e.1 ∈ sortedKeys m := hk.mem_iff.mpr (List.mem_map.mpr ⟨e, he, rfl⟩)
      simp [this]
    have h2 : later.filter (fun e => decide (e.1 ∉ sortedKeys m)) = later := by
      rw [List.filter_eq_self]
      intro e he
      have : e.1 ∉ sortedKeys m := by
        intro hmem
        exact hdis (hk.mem_iff.mp hmem) (List.mem_map.mpr ⟨e, he, rfl⟩)
      simp [this]
    rw [h1, h2, List.nil_append]

/-! ### The range loop of pocv1 -/

theorem writeLoop1_spec (m : Snapshot1) (ks : List GoString) (s : Store1)
    (hb : ∀ k ∈ ks, fieldB m k ≠ some JValue.other) :
    (writeLoop1 m ks s).crashed = false
    ∧ (writeLoop1 m ks s).effects = ks.flatMap (entryEffects1 m)
    ∧ (writeLoop1 m ks s).store
        = s.filter (fun e => decide (e.1 ∉ ks.filter (fun k => (fieldB m k).isSome))) := by
  induction ks generalizing s with
  | nil => simp [writeLoop1]
  | cons k ks ih =>
    have hk := hb k (List.mem_cons_self _ _)
    have hks : ∀ k' ∈ ks, fieldB m k' ≠ some JValue.other :=
      fun k' h => hb k' (List.mem_cons_of_mem _ h)
    rw [List.flatMap_cons]
    cases hf : fieldB m k with
    | none =>
      obtain ⟨h1, h2, h3⟩ := ih s hks
      simp only [writeLoop1, hf, entryEffects1, List.nil_append]
      refine ⟨h1, h2, ?_⟩
      rw [h3]
      simp [List.filter_cons, hf]
    | some v =>
      cases v with
      | other => exact absurd hf hk
      | number b =>
        obtain ⟨h1, h2, h3⟩ := ih (storeDelete s k) hks
        simp only [writeLoop1, hf, entryEffects1]
        refine ⟨h1, ?_, ?_⟩
        · rw [h2]; rfl
        · rw [h3]
          simp only [storeDelete, List.filter_filter, List.filter_cons, hf, Option.isSome_some,
            if_true]
          apply List.filter_congr
          intro e _
          by_cases h1 : e.1 = k <;>
            by_cases h2 : e.1 ∈ ks.filter (fun k => (fieldB m k).isSome) <;> simp [h1, h2]

theorem fieldB_perm {m m' : Snapshot1} (hp : m'.Perm m) (hn : (m.map Prod.fst).Nodup)
    (k : GoString) : fieldB m' k = fieldB m k := by
  have hn' : (m'.map Prod.fst).Nodup := (hp.map Prod.fst).nodup_iff.mpr hn
  simp [fieldB, objectAt, lookup_perm hp hn' k]

theorem writeLoop1_congr {m m' : Snapshot1} (h : ∀ k, fieldB m' k = fieldB m k)
    (ks : List GoString) (s : Store1) : writeLoop1 m' ks s = writeLoop1 m ks s := by
  induction ks generalizing s with
  | nil => rfl
  | cons k ks ih => simp only [writeLoop1, h k, ih]

theorem pollOnce_error (msg : String) (s : Store) :
    pollOnce (GetResultOf.error msg) s = ([], s) := by
  show (if !stringsContains msg "no data available" then ([], s)
    else writeLoop [] (sortedKeys ([] : Snapshot)) s) = ([], s)
  split <;> rfl

theorem pollOnce1_error (msg : String) (s : Store1) :
    pollOnce1 (GetResultOf.error msg) s = { effects := [], store := s, crashed := false } := by
  show (if msg != unmarshalBoolMsg then { effects := [], store := s, crashed := false }
    else writeLoop1 [] (sortedKeys ([] : Snapshot1)) s) = _
  split <;> rfl

/-! ### Claims about one poll pass -/

/-- C3, as amended: in one pass of a pocv2 poll loop over a snapshot with
distinct keys, the chunks written are the snapshot's chunks, one per key, in
strictly ascending key order, whatever the chunks hold and whatever order the
map is iterated in. In one pass of a pocv1 poll loop whose `b` fields hold byte
numbers, the same holds of the entries that carry a field `b`; an entry
without one is passed over, neither written nor deleted. -/
theorem poll_pass_in_key_order (m : Snapshot) (s : Store) (m1 : Snapshot1) (s1 : Store1)
    (hn : (m.map Prod.fst).Nodup) (hn1 : (m1.map Prod.fst).Nodup)
    (hb : ∀ k ∈ m1.map Prod.fst, fieldB m1 k ≠ some JValue.other) :
    (writesOf (pollOnce (GetResultOf.ok m) s).1 = (sortedKeys m).map m.dataAt
      ∧ deletesOf (pollOnce (GetResultOf.ok m) s).1 = sortedKeys m
      ∧ (sortedKeys m).Sorted (· < ·)
      ∧ (sortedKeys m).Perm (m.map Prod.fst)
      ∧ (∀ e ∈ m, m.dataAt e.1 = e.2.Data)
      ∧ (∀ m2 : Snapshot, m2.Perm m →
          pollOnce (GetResultOf.ok m2) s = pollOnce (GetResultOf.ok m) s))
    ∧ ((pollOnce1 (GetResultOf.ok m1) s1).crashed = false
      ∧ (pollOnce1 (GetResultOf.ok m1) s1).effects = (sortedKeys m1).flatMap (entryEffects1 m1)
      ∧ (sortedKeys m1).Sorted (· < ·)
      ∧ (sortedKeys m1).Perm (m1.map Prod.fst)
      ∧ (∀ m2 : Snapshot1, m2.Perm m1 →
          pollOnce1 (GetResultOf.ok m2) s1 = pollOnce1 (GetResultOf.ok m1) s1)) := by
  refine ⟨⟨?_, ?_, sortStrings_strict _ hn, sortStrings_perm _, ?_, ?_⟩,
    ?_, ?_, sortStrings_strict _ hn1, sortStrings_perm _, ?_⟩
  · simp only [pollOnce, writeLoop_effects, writesOf_bind]
  · simp only [pollOnce, writeLoop_effects, deletesOf_bind]
  · intro e he
    exact dataAt_of_mem hn he
  · intro m2 h2
    exact pollOnce_perm h2 hn s
  · have hb' : ∀ k ∈ sortedKeys m1, fieldB m1 k ≠ some JValue.other :=
      fun k hk => hb k ((sortStrings_perm _).mem_iff.mp hk)
    exact (writeLoop1_spec m1 (sortedKeys m1) s1 hb').1
  · have hb' : ∀ k ∈ sortedKeys m1, fieldB m1 k ≠ some JValue.other :=
      fun k hk => hb k ((sortStrings_perm _).mem_iff.mp hk)
    exact (writeLoop1_spec m1 (sortedKeys m1) s1 hb').2.1
  · intro m2 h2
    simp only [pollOnce1, sortedKeys_congr h2]
    exact writeLoop1_congr (fieldB_perm h2 hn1) _ _

/-- Witness of C3 on a pocv2 snapshot iterated out of order and a pocv1 snapshot
with one entry that has no field `b`. -/
theorem poll_pass_in_key_order_witness :
    writesOf (pollOnce (GetResultOf.ok [(ascii "k2", ⟨ascii "b"⟩), (ascii "k1", ⟨ascii "z"⟩)])
        [(ascii "k1", encodeData (ascii "z")), (ascii "k2", encodeData (ascii "b"))]).1
      = [ascii "z", ascii "b"]
    ∧ (pollOnce1 (GetResultOf.ok [(ascii "k2", encodeByte 7), (ascii "k1", [])])
        [(ascii "k1", []), (ascii "k2", encodeByte 7)]).effects
      = [Effect.write [7], Effect.delete (ascii "k2")] := by
  have h := poll_pass_in_key_order
    [(ascii "k2", ⟨ascii "b"⟩), (ascii "k1", ⟨ascii "z"⟩)]
    [(ascii "k1", encodeData (ascii "z")), (ascii "k2", encodeData (ascii "b"))]
    [(ascii "k2", encodeByte 7), (ascii "k1", [])]
    [(ascii "k1", []), (ascii "k2", encodeByte 7)]
    (by decide) (by decide) (by decide)
  exact ⟨h.1.1.trans (by decide), h.2.2.1.trans (by decide)⟩

/-- Counterexample to C3 as first stated: a pocv1 pass over a snapshot of one
key whose entry has no field `b` writes nothing and deletes nothing. -/
theorem pocv1_pass_skips_entry_without_b :
    [(ascii "k1", [("data", JValue.other)])].length = 1
    ∧ writesOf (pollOnce1 (GetResultOf.ok [(ascii "k1", [("data", JValue.other)])])
        [(ascii "k1", [("data", JValue.other)])]).effects = []
    ∧ (pollOnce1 (GetResultOf.ok [(ascii "k1", [("data", JValue.other)])])
        [(ascii "k1", [("data", JValue.other)])]).store
      = [(ascii "k1", [("data", JValue.other)])] := by
  decide

/-- C4: one pass of a pocv2 poll loop over a store made of the entries `pre`
seen by the snapshot `m` and the entries `later` pushed after it writes each
entry of the snapshot once, deletes a key right after its chunk was written,
and leaves exactly `later` in the store; a following pass over a snapshot of
what is left writes the later entries and none of the earlier ones again, so
that every entry is written exactly once and the store ends empty. -/
theorem poll_pass_acknowledges (pre later : Store) (m m2 : Snapshot)
    (hn : ((pre ++ later).map Prod.fst).Nodup) (hm : m.Perm (decoded pre))
    (hm2 : m2.Perm (decoded later)) :
    (pollOnce (GetResultOf.ok m) (pre ++ later)).1
        = (sortedKeys m).flatMap (fun k => [Effect.write (m.dataAt k), Effect.delete k])
    ∧ (writesOf (pollOnce (GetResultOf.ok m) (pre ++ later)).1).Perm (pre.map payloadOf)
    ∧ (deletesOf (pollOnce (GetResultOf.ok m) (pre ++ later)).1).Perm (pre.map Prod.fst)
    ∧ (pollOnce (GetResultOf.ok m) (pre ++ later)).2
        = (pre ++ later).filter (fun e => decide (e.1 ∉ m.map Prod.fst))
    ∧ (pollOnce (GetResultOf.ok m) (pre ++ later)).2 = later
    ∧ (writesOf (writeShell [GetResultOf.ok m, GetResultOf.ok m2] (pre ++ later)).1).Perm
        ((pre ++ later).map payloadOf)
    ∧ (writeShell [GetResultOf.ok m, GetResultOf.ok m2] (pre ++ later)).2 = [] := by
  obtain ⟨h1, h2, h3⟩ := pollOnce_snapshot pre later m hn hm
  have hn2 : ((later ++ []).map Prod.fst).Nodup := by
    rw [List.append_nil]
    rw [List.map_append, List.nodup_append] at hn
    exact hn.2.1
  have hl := pollOnce_snapshot later [] m2 hn2 hm2
  rw [List.append_nil] at hl
  obtain ⟨l1, _, l3⟩ := hl
  refine ⟨?_, h1, h2, ?_, h3, ?_, ?_⟩
  · simp only [pollOnce, writeLoop_effects]
  · simp only [pollOnce, writeLoop_store]
    apply List.filter_congr
    intro e _
    have : e.1 ∈ sortedKeys m ↔ e.1 ∈ m.map Prod.fst := (sortStrings_perm _).mem_iff
    simp [this]
  · simp only [writeShell, h3, List.append_nil, writesOf_append, List.map_append]
    exact h1.append l1
  · simp only [writeShell, h3, l3]

/-- Witness of C4 on a store of three entries of which the snapshot saw two. -/
theorem poll_pass_acknowledges_witness :
    (pollOnce (GetResultOf.ok [(ascii "k2", ⟨ascii "b"⟩), (ascii "k1", ⟨ascii "a"⟩)])
        ([(ascii "k1", encodeData (ascii "a")), (ascii "k2", encodeData (ascii "b"))]
          ++ [(ascii "k3", encodeData (ascii "c"))])).2
      = [(ascii "k3", encodeData (ascii "c"))] :=
  (poll_pass_acknowledges
    [(ascii "k1", encodeData (ascii "a")), (ascii "k2", encodeData (ascii "b"))]
    [(ascii "k3", encodeData (ascii "c"))]
    [(ascii "k2", ⟨ascii "b"⟩), (ascii "k1", ⟨ascii "a"⟩)]
    [(ascii "k3", ⟨ascii "c"⟩)]
    (by decide) (by decide) (by decide)).2.2.2.2.1

/-- C9: a pass of a poll loop whose `Get` returns an error, with whatever
text, writes nothing, deletes nothing and leaves the store as it was, and the
loop goes on with its next pass; so in pocv2 as in pocv1. -/
theorem failed_get_is_empty_pass (msg : String) (s : Store) (rs : List GetResult)
    (s1 : Store1) (rs1 : List (GetResultOf Snapshot1)) :
    pollOnce (GetResultOf.error msg) s = ([], s)
    ∧ pollOnce (GetResultOf.error msg) s = pollOnce (GetResultOf.ok []) s
    ∧ writeShell (GetResultOf.error msg :: rs) s = writeShell rs s
    ∧ writeOutput (GetResultOf.error msg :: rs) s = writeOutput rs s
    ∧ pollOnce1 (GetResultOf.error msg) s1 = { effects := [], store := s1, crashed := false }
    ∧ pollLoop1 (GetResultOf.error msg :: rs1) s1 = pollLoop1 rs1 s1 := by
  refine ⟨pollOnce_error msg s, ?_, ?_, ?_, pollOnce1_error msg s1, ?_⟩
  · rw [pollOnce_error]; rfl
  · simp only [writeShell, pollOnce_error, List.nil_append]
  · simp only [writeOutput, pollOnce_error, List.nil_append]
  · simp only [pollLoop1, pollOnce1_error, List.nil_append]
    simp

/-! ### The read loops -/

theorem decode_encode (d : GoString) : (decodeData (encodeData d)).Data = d := rfl

theorem attempted_cons {α : Type} (p : α × Bool) (r : ReadRun α) :
    (ReadRun.cons p r).attempted = p.1 :: r.attempted := rfl

theorem attempted_nil {α : Type} (e : Bool) :
    ({ pushes := [], exited := e } : ReadRun α).attempted = [] := rfl

theorem exited_cons {α : Type} (p : α × Bool) (r : ReadRun α) :
    (ReadRun.cons p r).exited = r.exited := rfl

theorem readShell_attempted (rs : List ReadResult) (os : List Bool) :
    pushedChunks (readShell rs os)
      = nonEmptyChunks ((throughFirstError rs).map (fun r => r.data)) := by
  induction rs generalizing os with
  | nil => rfl
  | cons r rs ih =>
    by_cases hd : 0 < r.data.length <;> by_cases he : r.err.isSome
    · simp [readShell, throughFirstError, hd, he, pushedChunks, attempted_cons, nonEmptyChunks,
        decode_encode, attempted_nil]
    · have := ih (nextOutcome os).2
      simp only [pushedChunks] at this
      simp [readShell, throughFirstError, hd, he, pushedChunks, attempted_cons, nonEmptyChunks,
        decode_encode, this]
    · simp [readShell, throughFirstError, hd, he, pushedChunks, nonEmptyChunks,
        attempted_nil]
    · have := ih os
      simp only [pushedChunks] at this
      simp [readShell, throughFirstError, hd, he, pushedChunks, nonEmptyChunks, this]

theorem readShell_exited (rs : List ReadResult) (os : List Bool) :
    (readShell rs os).exited = rs.any (fun r => r.err.isSome) := by
  induction rs generalizing os with
  | nil => rfl
  | cons r rs ih =>
    by_cases hd : 0 < r.data.length <;> by_cases he : r.err.isSome <;>
      simp [readShell, hd, he, exited_cons, ih]

theorem flatten_nonEmptyChunks (cs : List GoString) :
    (nonEmptyChunks cs).flatten = cs.flatten := by
  induction cs with
  | nil => rfl
  | cons c cs ih =>
    unfold nonEmptyChunks at ih ⊢
    cases c with
    | nil => simpa [List.filter_cons] using ih
    | cons b c => simp [List.filter_cons, ih]

/-- C10: for results of reads of the PTY master that each bring at most
`BatchSize` bytes, the chunks that pocv2 `readShell` pushes are the non-empty
ones among the results up to and including the first that carries an error,
in order; each has between 1 and `BatchSize` bytes, and joined they are the
bytes that those reads returned; the loop has left its `for` exactly when a
result carried an error. -/
theorem readShell_chunking (rs : List ReadResult) (os : List Bool)
    (hsize : ∀ r ∈ rs, r.data.length ≤ BatchSize) :
    pushedChunks (readShell rs os)
        = nonEmptyChunks ((throughFirstError rs).map (fun r => r.data))
    ∧ (readShell rs os).attempted = (pushedChunks (readShell rs os)).map encodeData
    ∧ (∀ c ∈ pushedChunks (readShell rs os), 1 ≤ c.length ∧ c.length ≤ BatchSize)
    ∧ (pushedChunks (readShell rs os)).flatten
        = ((throughFirstError rs).map (fun r => r.data)).flatten
    ∧ (readShell rs os).exited = rs.any (fun r => r.err.isSome) := by
  have hsub : ∀ r ∈ throughFirstError rs, r ∈ rs := by
    intro r
    induction rs with
    | nil => simp [throughFirstError]
    | cons a rs ih =>
      unfold throughFirstError
      split
      · intro h
        simp only [List.mem_singleton] at h
        simp [h]
      · intro h
        rcases List.mem_cons.mp h with h | h
        · simp [h]
        · exact List.mem_cons_of_mem _ (ih (fun r hr => hsize r (List.mem_cons_of_mem _ hr)) h)
  refine ⟨readShell_attempted rs os, ?_, ?_, ?_, readShell_exited rs os⟩
  · clear hsub hsize
    induction rs generalizing os with
    | nil => rfl
    | cons r rs ih =>
      by_cases hd : 0 < r.data.length <;> by_cases he : r.err.isSome
      · simp [readShell, hd, he, pushedChunks, attempted_cons, decode_encode, attempted_nil]
      · have := ih (nextOutcome os).2
        simp only [pushedChunks] at this
        simp only [readShell, hd, he, pushedChunks, attempted_cons, if_true, List.map_cons,
          decode_encode, Bool.false_eq_true, if_false]
        rw [← this]
      · simp [readShell, hd, he, pushedChunks, attempted_nil]
      · have := ih os
        simp only [pushedChunks] at this
        simp only [readShell, hd, he, pushedChunks, if_false, Bool.false_eq_true]
        exact this
  · intro c hc
    rw [readShell_attempted] at hc
    unfold nonEmptyChunks at hc
    rw [List.mem_filter, List.mem_map] at hc
    obtain ⟨⟨r, hr, rfl⟩, hpos⟩ := hc
    exact ⟨by simpa using hpos, hsize r (hsub r hr)⟩
  · rw [readShell_attempted, flatten_nonEmptyChunks]

/-- Witness of C10: a chunk, an empty read, then a last chunk that comes with
the error of the closed PTY, and a read that is never made. -/
theorem readShell_chunking_witness :
    pushedChunks (readShell
        [ReadResult.chunk (ascii "ab"), ReadResult.chunk [],
          { data := ascii "c", err := some ReadError.other }, ReadResult.chunk (ascii "d")] [])
      = [ascii "ab", ascii "c"] :=
  (readShell_chunking
    [ReadResult.chunk (ascii "ab"), ReadResult.chunk [],
      { data := ascii "c", err := some ReadError.other }, ReadResult.chunk (ascii "d")] []
    (by decide)).1.trans (by decide)

theorem readInput_attempted (rs : List ReadResult) (os : List Bool) :
    pushedChunks (readInput rs os) = nonEmptyChunks (cleanChunks (beforeEOF rs)) := by
  induction rs generalizing os with
  | nil => rfl
  | cons r rs ih =>
    obtain ⟨d, e⟩ := r
    cases e with
    | some e =>
      cases e with
      | eof => simp [readInput, beforeEOF, cleanChunks, nonEmptyChunks, pushedChunks, attempted_nil]
      | other =>
        have := ih os
        simp only [cleanChunks, nonEmptyChunks] at this
        simp [readInput, beforeEOF, cleanChunks, nonEmptyChunks, this]
    | none =>
      by_cases hd : 0 < d.length
      · have := ih (nextOutcome os).2
        simp only [pushedChunks, cleanChunks, nonEmptyChunks] at this
        simp [readInput, beforeEOF, cleanChunks, nonEmptyChunks, pushedChunks, attempted_cons,
          decode_encode, hd, this]
      · have := ih os
        simp only [cleanChunks, nonEmptyChunks] at this
        simp [readInput, beforeEOF, cleanChunks, nonEmptyChunks, hd, this]

theorem stored_of_all_true {α : Type} (ps : List (α × Bool)) (h : ∀ p ∈ ps, p.2 = true) :
    (ps.filter Prod.snd).map Prod.fst = ps.map Prod.fst := by
  rw [List.filter_eq_self.mpr h]

theorem readInput_pushes_ok (rs : List ReadResult) :
    ∀ p ∈ (readInput rs []).pushes, p.2 = true := by
  induction rs with
  | nil => simp [readInput]
  | cons r rs ih =>
    obtain ⟨d, e⟩ := r
    cases e with
    | some e =>
      cases e with
      | eof => simp [readInput]
      | other => simpa [readInput] using ih
    | none =>
      by_cases hd : 0 < d.length
      · intro p hp
        simp only [readInput, hd, if_true, ReadRun.cons, nextOutcome, List.mem_cons] at hp
        rcases hp with hp | hp
        · rw [hp]
        · exact ih p hp
      · simpa [readInput, hd] using ih

theorem readInput_stored (rs : List ReadResult) :
    storedChunks (readInput rs []) = nonEmptyChunks (cleanChunks (beforeEOF rs)) := by
  rw [← readInput_attempted rs []]
  unfold storedChunks pushedChunks ReadRun.stored ReadRun.attempted
  rw [stored_of_all_true _ (readInput_pushes_ok rs)]

theorem readInput_stops_at_eof (pre post : List ReadResult) (d : GoString) (os : List Bool)
    (hpre : ∀ x ∈ pre, x.err ≠ some ReadError.eof) :
    readInput (pre ++ { data := d, err := some ReadError.eof } :: post) os
        = { pushes := (readInput pre os).pushes, exited := true }
    ∧ (readInput pre os).exited = false := by
  induction pre generalizing os with
  | nil => simp [readInput]
  | cons r pre ih =>
    have hr := hpre r (List.mem_cons_self _ _)
    have hpre' : ∀ x ∈ pre, x.err ≠ some ReadError.eof :=
      fun x hx => hpre x (List.mem_cons_of_mem _ hx)
    obtain ⟨c, e⟩ := r
    cases e with
    | some e =>
      cases e with
      | eof => exact absurd rfl hr
      | other => simpa [readInput] using ih os hpre'
    | none =>
      by_cases hd : 0 < c.length
      · obtain ⟨h1, h2⟩ := ih (nextOutcome os).2 hpre'
        rw [List.cons_append]
        simp only [readInput, hd, if_true]
        rw [h1]
        exact ⟨rfl, h2⟩
      · simpa [readInput, hd] using ih os hpre'

theorem clientReadLoop1_stops (pre post : List ReadResult) (r : ReadResult) (os : List Bool)
    (hpre : ∀ x ∈ pre, x.err = none) (hr : r.err.isSome = true) :
    clientReadLoop1 (pre ++ r :: post) os
      = { pushes := (clientReadLoop1 pre os).pushes, exited := true } := by
  induction pre generalizing os with
  | nil => simp [clientReadLoop1, hr]
  | cons a pre ih =>
    have ha := hpre a (List.mem_cons_self _ _)
    have hpre' : ∀ x ∈ pre, x.err = none := fun x hx => hpre x (List.mem_cons_of_mem _ hx)
    obtain ⟨c, e⟩ := a
    simp only at ha
    subst ha
    cases c with
    | nil => simp [clientReadLoop1]
    | cons b c =>
      by_cases ho : (nextOutcome os).1 = true
      · rw [List.cons_append]
        simp only [clientReadLoop1, Option.isSome_none, Bool.false_eq_true, if_false, ho, if_true]
        rw [ih (nextOutcome os).2 hpre']
        rfl
      · simp [clientReadLoop1, ho]

/-- C6, as amended: the read loop of pocv2 `readInput` ends at the first result
of `os.Stdin.Read` whose error is `io.EOF` and pushes nothing after it; a
result that carries any other error is passed over, nothing being pushed for
it, and the loop reads on. The client read loop of pocv1 ends at the first
result that carries an error of any kind and pushes nothing after it. -/
theorem client_read_loop_stops (pre post : List ReadResult) (d : GoString) (os : List Bool)
    (pre1 : List ReadResult) (r : ReadResult)
    (hpre : ∀ x ∈ pre, x.err ≠ some ReadError.eof)
    (hpre1 : ∀ x ∈ pre1, x.err = none) (hr : r.err.isSome = true) :
    readInput (pre ++ { data := d, err := some ReadError.eof } :: post) os
        = { pushes := (readInput pre os).pushes, exited := true }
    ∧ (readInput pre os).exited = false
    ∧ readInput ({ data := d, err := some ReadError.other } :: post) os = readInput post os
    ∧ clientReadLoop1 (pre1 ++ r :: post) os
        = { pushes := (clientReadLoop1 pre1 os).pushes, exited := true } :=
  ⟨(readInput_stops_at_eof pre post d os hpre).1, (readInput_stops_at_eof pre post d os hpre).2,
    rfl, clientReadLoop1_stops pre1 post r os hpre1 hr⟩

/-- Witness of C6: a chunk, a failed read, `io.EOF`, and a chunk that is never
read, for pocv2; a byte, a failed read and a byte never read, for pocv1. -/
theorem client_read_loop_stops_witness :
    (readInput ([ReadResult.chunk (ascii "a"), ReadResult.failed ReadError.other]
        ++ { data := [], err := some ReadError.eof } :: [ReadResult.chunk (ascii "b")]) []).attempted
      = [encodeData (ascii "a")]
    ∧ (clientReadLoop1 ([ReadResult.chunk (ascii "a")]
        ++ ReadResult.failed ReadError.other :: [ReadResult.chunk (ascii "b")]) []).attempted
      = [encodeByte 97] := by
  have h := client_read_loop_stops
    [ReadResult.chunk (ascii "a"), ReadResult.failed ReadError.other]
    [ReadResult.chunk (ascii "b")] [] [] [ReadResult.chunk (ascii "a")]
    (ReadResult.failed ReadError.other) (by decide) (by decide) (by decide)
  exact ⟨by rw [h.1]; decide, by rw [h.2.2.2]; decide⟩

/-- Counterexample to C6 as first stated: after a read of pocv2 `readInput`
that failed with an error other than `io.EOF`, the loop has not ended, and it
pushes the chunk that the next read brings. -/
theorem readInput_reads_on_after_error :
    (readInput [ReadResult.failed ReadError.other, ReadResult.chunk (ascii "a")] []).attempted
      = [encodeData (ascii "a")]
    ∧ (readInput [ReadResult.failed ReadError.other, ReadResult.chunk (ascii "a")] []).exited
      = false := by
  decide

/-! ### Pushes that fail -/

theorem outcomesFor_nil (n : Nat) : outcomesFor n [] = List.replicate n true := by
  induction n with
  | zero => rfl
  | succ n ih => simp [outcomesFor, nextOutcome, ih, List.replicate_succ]

theorem readInput_pushes (rs : List ReadResult) (os : List Bool) :
    (readInput rs os).pushes
      = (readInput rs []).attempted.zip (outcomesFor (readInput rs []).attempted.length os) := by
  induction rs generalizing os with
  | nil => rfl
  | cons r rs ih =>
    obtain ⟨c, e⟩ := r
    cases e with
    | some e =>
      cases e with
      | eof => simp [readInput, attempted_nil, outcomesFor]
      | other => simpa [readInput] using ih os
    | none =>
      by_cases hd : 0 < c.length
      · simp only [readInput, hd, if_true, attempted_cons, List.length_cons, outcomesFor,
          List.zip_cons_cons]
        rw [ReadRun.cons, ih (nextOutcome os).2]
        have h1 : (readInput rs (nextOutcome []).2) = readInput rs [] := rfl
        rw [h1]
      · simpa [readInput, hd] using ih os

theorem readShell_pushes (rs : List ReadResult) (os : List Bool) :
    (readShell rs os).pushes
      = (readShell rs []).attempted.zip (outcomesFor (readShell rs []).attempted.length os) := by
  induction rs generalizing os with
  | nil => rfl
  | cons r rs ih =>
    have h1 : (readShell rs (nextOutcome []).2) = readShell rs [] := rfl
    by_cases hd : 0 < r.data.length <;> by_cases he : r.err.isSome
    · simp [readShell, hd, he, ReadRun.attempted, outcomesFor, ReadRun.cons, nextOutcome]
    · simp only [readShell, hd, he, if_true, attempted_cons, List.length_cons, outcomesFor,
        List.zip_cons_cons, Bool.false_eq_true, if_false, h1]
      rw [ReadRun.cons, ih (nextOutcome os).2]
    · simp [readShell, hd, he, attempted_nil, outcomesFor]
    · simpa [readShell, hd, he] using ih os

theorem zip_replicate_true_stored {α : Type} (l : List α) :
    ((l.zip (List.replicate l.length true)).filter Prod.snd).map Prod.fst = l := by
  induction l with
  | nil => rfl
  | cons a l ih => simp [List.replicate_succ, List.filter_cons, ih]

theorem readShell_stored (rs : List ReadResult) :
    storedChunks (readShell rs [])
      = nonEmptyChunks ((throughFirstError rs).map (fun r => r.data)) := by
  rw [← readShell_attempted rs []]
  unfold storedChunks pushedChunks ReadRun.stored
  rw [readShell_pushes rs [], outcomesFor_nil, zip_replicate_true_stored]

theorem pushBytes1_nil (bs : List Byte) :
    pushBytes1 bs [] = (bs.map (fun b => (encodeByte b, true)), []) := by
  induction bs with
  | nil => rfl
  | cons b bs ih => simp [pushBytes1, nextOutcome, ih]

theorem pushBytes1_stored_sublist (bs : List Byte) (os : List Bool) :
    (((pushBytes1 bs os).1.filter Prod.snd).map Prod.fst).Sublist (bs.map encodeByte) := by
  induction bs generalizing os with
  | nil => simp [pushBytes1]
  | cons b bs ih =>
    by_cases ho : (nextOutcome os).1 = true
    · simp only [pushBytes1, ho, if_true, List.filter_cons, List.map_cons]
      exact (ih (nextOutcome os).2).cons₂ _
    · simp [pushBytes1, ho, List.filter_cons]

theorem serverReadLoop1_stored_sublist (rs : List ReadResult) (os : List Bool) :
    (serverReadLoop1 rs os).stored.Sublist (serverReadLoop1 rs []).attempted := by
  induction rs generalizing os with
  | nil => simp [serverReadLoop1, ReadRun.stored, ReadRun.attempted]
  | cons r rs ih =>
    by_cases he : r.err.isSome
    · simp [serverReadLoop1, he, ReadRun.stored, ReadRun.attempted]
    · have h := ih (pushBytes1 r.data os).2
      simp only [ReadRun.stored, ReadRun.attempted] at h ⊢
      simp only [serverReadLoop1, he, Bool.false_eq_true, if_false, List.filter_append,
        List.map_append, pushBytes1_nil, List.map_map]
      exact (pushBytes1_stored_sublist r.data os).append h

theorem nextOutcome_nil : nextOutcome [] = (true, []) := rfl

theorem map_fst_kept (bs : List Byte) :
    (bs.map (fun b => (encodeByte b, true))).map Prod.fst = bs.map encodeByte := by
  induction bs with
  | nil => rfl
  | cons b bs ih => simp [ih]

theorem filter_kept (bs : List Byte) :
    (bs.map (fun b => (encodeByte b, true))).filter Prod.snd
      = bs.map (fun b => (encodeByte b, true)) := by
  rw [List.filter_eq_self]
  intro p hp
  obtain ⟨b, _, rfl⟩ := List.mem_map.mp hp
  rfl

theorem serverReadLoop1_attempted (rs : List ReadResult) :
    (serverReadLoop1 rs []).attempted
      = (((rs.takeWhile (fun r => r.err.isNone)).map (fun r => r.data)).flatten).map encodeByte
    ∧ (serverReadLoop1 rs []).stored = (serverReadLoop1 rs []).attempted := by
  induction rs with
  | nil => simp [serverReadLoop1, ReadRun.stored, ReadRun.attempted]
  | cons r rs ih =>
    obtain ⟨c, e⟩ := r
    cases e with
    | some e => simp [serverReadLoop1, ReadRun.stored, ReadRun.attempted, List.takeWhile]
    | none =>
      obtain ⟨h1, h2⟩ := ih
      simp only [ReadRun.stored, ReadRun.attempted] at h1 h2 ⊢
      simp only [serverReadLoop1, Option.isSome_none, Bool.false_eq_true, if_false,
        pushBytes1_nil, List.map_append, h1, List.takeWhile, Option.isNone_none,
        List.map_cons, List.flatten_cons, List.filter_append, h2, filter_kept, map_fst_kept]
      exact ⟨trivial, trivial⟩

theorem clientReadLoop1_stored_initial (rs : List ReadResult) (os : List Bool) :
    (clientReadLoop1 rs os).stored <+: (clientReadLoop1 rs []).attempted := by
  induction rs generalizing os with
  | nil => simp [clientReadLoop1, ReadRun.stored, ReadRun.attempted]
  | cons r rs ih =>
    obtain ⟨c, e⟩ := r
    cases e with
    | some e => simp [clientReadLoop1, ReadRun.stored, ReadRun.attempted]
    | none =>
      cases c with
      | nil => simp [clientReadLoop1, ReadRun.stored, ReadRun.attempted]
      | cons b c =>
        by_cases ho : (nextOutcome os).1 = true
        · have h := ih (nextOutcome os).2
          simp only [ReadRun.stored, ReadRun.attempted] at h ⊢
          simp only [clientReadLoop1, Option.isSome_none, Bool.false_eq_true, if_false, ho,
            if_true, ReadRun.cons, nextOutcome_nil, List.filter_cons, List.map_cons]
          exact (List.prefix_cons_inj _).mpr h
        · simp [clientReadLoop1, ho, ReadRun.stored, ReadRun.cons, List.filter_cons]

theorem clientReadLoop1_stored_nil (rs : List ReadResult) :
    (clientReadLoop1 rs []).stored = (clientReadLoop1 rs []).attempted := by
  induction rs with
  | nil => rfl
  | cons r rs ih =>
    obtain ⟨c, e⟩ := r
    cases e with
    | some e => simp [clientReadLoop1, ReadRun.stored, ReadRun.attempted]
    | none =>
      cases c with
      | nil => simp [clientReadLoop1, ReadRun.stored, ReadRun.attempted]
      | cons b c =>
        simp only [ReadRun.stored, ReadRun.attempted] at ih ⊢
        simp only [clientReadLoop1, Option.isSome_none, Bool.false_eq_true, if_false,
          nextOutcome_nil, if_true, ReadRun.cons, List.filter_cons, List.map_cons, ih]

/-- C5, as amended: no read loop pushes a chunk again after a failed push. In
pocv2 `readInput` and `readShell` what `Push` returns is not looked at: the
chunks handed to `Push` are the same whatever the outcomes, the k-th of them
meets the k-th outcome, so that the chunks stored are those whose one push
succeeded, in order, and they are all the non-empty chunks read when no push
fails. In pocv1 the client read loop ends at the first failed push, and the
server read loop drops the remaining bytes of that read and goes on with the
next read; what they store is in the order read, and is all of it when no
push fails. -/
theorem failed_push_is_not_retried (rs : List ReadResult) (os : List Bool)
    (b : Byte) (bs : List Byte) :
    ((readInput rs os).pushes
        = (readInput rs []).attempted.zip (outcomesFor (readInput rs []).attempted.length os)
      ∧ (readShell rs os).pushes
        = (readShell rs []).attempted.zip (outcomesFor (readShell rs []).attempted.length os)
      ∧ storedChunks (readInput rs []) = nonEmptyChunks (cleanChunks (beforeEOF rs))
      ∧ storedChunks (readShell rs [])
        = nonEmptyChunks ((throughFirstError rs).map (fun r => r.data)))
    ∧ ((clientReadLoop1 rs os).stored <+: (clientReadLoop1 rs []).attempted
      ∧ (clientReadLoop1 rs []).stored = (clientReadLoop1 rs []).attempted
      ∧ clientReadLoop1 ({ data := b :: bs, err := none } :: rs) (false :: os)
        = { pushes := [(encodeByte b, false)], exited := true })
    ∧ ((serverReadLoop1 rs os).stored.Sublist (serverReadLoop1 rs []).attempted
      ∧ (serverReadLoop1 rs []).stored = (serverReadLoop1 rs []).attempted
      ∧ (serverReadLoop1 rs []).attempted
        = (((rs.takeWhile (fun r => r.err.isNone)).map (fun r => r.data)).flatten).map encodeByte
      ∧ serverReadLoop1 ({ data := b :: bs, err := none } :: rs) (false :: os)
        = { pushes := (encodeByte b, false) :: (serverReadLoop1 rs os).pushes,
            exited := (serverReadLoop1 rs os).exited }) :=
  ⟨⟨readInput_pushes rs os, readShell_pushes rs os, readInput_stored rs, readShell_stored rs⟩,
    ⟨clientReadLoop1_stored_initial rs os, clientReadLoop1_stored_nil rs, rfl⟩,
    ⟨serverReadLoop1_stored_sublist rs os, (serverReadLoop1_attempted rs).2,
      (serverReadLoop1_attempted rs).1, rfl⟩⟩

/-- Counterexample to C5 as first stated: the store fails the first push and
would keep the second; `readShell` pushes the chunk it read once, and nothing
is stored, and so for `readInput`. -/
theorem failed_push_drops_chunk :
    nextOutcome [false, true] = (false, [true])
    ∧ pushedChunks (readShell [ReadResult.chunk (ascii "a")] [false, true]) = [ascii "a"]
    ∧ storedChunks (readShell [ReadResult.chunk (ascii "a")] [false, true]) = []
    ∧ pushedChunks (readInput [ReadResult.chunk (ascii "a")] [false, true]) = [ascii "a"]
    ∧ storedChunks (readInput [ReadResult.chunk (ascii "a")] [false, true]) = [] := by
  decide

/-! ### The roles -/

theorem runEvents_append {σ ε : Type} (step : σ → ε → Option σ) (s : σ) (a b : List ε) :
    runEvents step s (a ++ b)
      = match runEvents step s a with
        | some t => runEvents step t b
        | none => none := by
  induction a generalizing s with
  | nil => rfl
  | cons e a ih =>
    simp only [List.cons_append, runEvents]
    cases step s e with
    | none => rfl
    | some t => exact ih t

theorem runEvents_invariant {σ ε : Type} (step : σ → ε → Option σ) (P : σ → Prop)
    (hstep : ∀ s e t, P s → step s e = some t → P t) (s : σ) (hs : P s) (es : List ε) (t : σ)
    (h : runEvents step s es = some t) : P t := by
  induction es generalizing s with
  | nil =>
    simp only [runEvents, Option.some.injEq] at h
    exact h ▸ hs
  | cons e es ih =>
    simp only [runEvents] at h
    cases hst : step s e with
    | none => simp [hst] at h
    | some u =>
      rw [hst] at h
      exact ih u (hstep s e u hs hst) h

theorem pollFlow_next (err : Option String) : pollFlow err = Flow.next := by
  unfold pollFlow
  split
  · split <;> rfl
  · rfl

theorem pollFlow1_next (err : Option String) : pollFlow1 err = Flow.next := by
  unfold pollFlow1
  split
  · split <;> rfl
  · rfl

theorem serverInv2_step (s : Server) (e : ServerEvent) (t : Server)
    (hs : ServerInv2 s) (h : serverMode s e = some t) : ServerInv2 t := by
  obtain ⟨h1, h2, h3, h4, h5⟩ := hs
  unfold serverMode at h
  split at h
  · cases h
  · cases e <;> simp only [pollFlow_next, pollFlow1_next] at h <;> (try split at h) <;> cases h <;>
      simp_all [ServerInv2]
    split <;> simp_all

theorem serverInv1_step (s : Server) (e : ServerEvent) (t : Server)
    (hs : ServerInv1 s) (h : runServer s e = some t) : ServerInv1 t := by
  obtain ⟨h1, h2, h3, h4, h5⟩ := hs
  unfold runServer at h
  split at h
  · cases h
  · cases e <;> simp only [pollFlow_next, pollFlow1_next] at h <;> (try split at h) <;> (try split at h) <;> cases h <;>
      simp_all [ServerInv1]

theorem serverInv2_init : ServerInv2 serverInit2 := by
  simp [ServerInv2, serverInit2]

theorem serverInv1_init : ServerInv1 serverInit1 := by
  simp [ServerInv1, serverInit1]

theorem serverInv2_reachable (es : List ServerEvent) (s : Server)
    (h : runEvents serverMode serverInit2 es = some s) : ServerInv2 s :=
  runEvents_invariant serverMode ServerInv2 serverInv2_step _ serverInv2_init es s h

theorem serverInv1_reachable (es : List ServerEvent) (s : Server)
    (h : runEvents runServer serverInit1 es = some s) : ServerInv1 s :=
  runEvents_invariant runServer ServerInv1 serverInv1_step _ serverInv1_init es s h

theorem serverMode_finished (s : Server) (e : ServerEvent) (t : Server)
    (hs : ServerInv2 s) (hf : s.reader = ReaderPc.finished) (h : serverMode s e = some t) :
    t.reader = ReaderPc.finished := by
  obtain ⟨h1, h2, h3, h4, h5⟩ := hs
  unfold serverMode at h
  split at h
  · cases h
  · cases e <;> simp only [pollFlow_next, pollFlow1_next] at h <;> (try split at h) <;> cases h <;> simp_all

theorem runServer_finished (s : Server) (e : ServerEvent) (t : Server)
    (hs : ServerInv1 s) (hf : s.reader = ReaderPc.finished) (h : runServer s e = some t) :
    t.reader = ReaderPc.finished := by
  obtain ⟨h1, h2, h3, h4, h5⟩ := hs
  unfold runServer at h
  split at h
  · cases h
  · cases e <;> simp only [pollFlow_next, pollFlow1_next] at h <;> (try split at h) <;> (try split at h) <;> cases h <;>
      simp_all

/-- C7, as amended: at any point of a run of the server role, a read of the
PTY master that returns an error makes the read loop leave its `for`, and the
read loop stays ended from then on; but the poll loop has no way out of its
`for`, so the role goes on polling: at no point of any run has the function of
the role returned or the deferred `ptmx.Close()` been called. So in pocv2
`serverMode` and in pocv1 `runServer`, where `wg.Wait()` keeps waiting for the
poll loop. -/
theorem server_role_after_shell_exit (es2 es1 : List ServerEvent) (s2 s1 : Server)
    (r : ReadResult) (os : List Bool) (hr : r.err.isSome = true)
    (h2 : runEvents serverMode serverInit2 es2 = some s2)
    (h1 : runEvents runServer serverInit1 es1 = some s1) :
    ((s2.reader = ReaderPc.reading →
        serverMode s2 (ServerEvent.ptyRead r os) = some { s2 with reader := ReaderPc.finished })
      ∧ (s2.reader = ReaderPc.finished →
          ∀ e t, serverMode s2 e = some t → t.reader = ReaderPc.finished)
      ∧ s2.ptyClosed = false ∧ s2.main ≠ ServerPc.returned
      ∧ (s2.main = ServerPc.inLoops →
          ∀ err, serverMode s2 (ServerEvent.pollPass err) = some s2)
      ∧ serverMode s2 ServerEvent.roleReturns = none)
    ∧ ((s1.reader = ReaderPc.reading →
        runServer s1 (ServerEvent.ptyRead r os)
          = some { s1 with reader := ReaderPc.finished, wg := 1 })
      ∧ (s1.reader = ReaderPc.finished →
          ∀ e t, runServer s1 e = some t → t.reader = ReaderPc.finished)
      ∧ s1.ptyClosed = false ∧ s1.main ≠ ServerPc.returned
      ∧ (s1.main = ServerPc.inLoops →
          ∀ err, runServer s1 (ServerEvent.pollPass err) = some s1)
      ∧ runServer s1 ServerEvent.roleReturns = none) := by
  obtain ⟨a1, a2, a3, a4, a5⟩ := serverInv2_reachable es2 s2 h2
  obtain ⟨b1, b2, b3, b4, b5⟩ := serverInv1_reachable es1 s1 h1
  have hx2 : (readShell [r] os).exited = true := by
    rw [readShell_exited]; simp [hr]
  have hx1 : (serverReadLoop1 [r] os).exited = true := by
    simp [serverReadLoop1, hr]
  refine ⟨⟨?_, fun hf e t h =>
      serverMode_finished s2 e t (serverInv2_reachable es2 s2 h2) hf h, a1, a2, ?_, ?_⟩,
    ⟨?_, fun hf e t h =>
      runServer_finished s1 e t (serverInv1_reachable es1 s1 h1) hf h, b1, b2, ?_, ?_⟩⟩
  · intro hrd
    have hm : s2.main = ServerPc.inLoops := by
      by_contra hne
      rw [a5 hne] at hrd
      cases hrd
    simp [serverMode, (a4 hm).1, hrd, hx2]
  · intro hm
    intro err
    simp [serverMode, (a4 hm).1, (a4 hm).2.1, pollFlow_next]
  · unfold serverMode
    split
    · rfl
    · simp [a3]
  · intro hrd
    have hm : s1.main = ServerPc.inLoops := by
      by_contra hne
      rw [b5 hne] at hrd
      cases hrd
    obtain ⟨hex, _, hwg⟩ := b4 hm
    have hw : s1.wg = 2 := by
      rcases hwg with ⟨_, hw⟩ | ⟨hfin, _⟩
      · exact hw
      · rw [hfin] at hrd; cases hrd
    simp [runServer, hex, hrd, hx1, hw]
  · intro hm
    intro err
    simp [runServer, (b4 hm).1, (b4 hm).2.1, pollFlow1_next]
  · unfold runServer
    split
    · rfl
    · by_cases hm : s1.main = ServerPc.inLoops
      · have hwg := (b4 hm).2.2
        have : s1.wg ≠ 0 := by
          rcases hwg with ⟨_, hw⟩ | ⟨_, hw⟩ <;> omega
        simp [this]
      · simp [hm]

/-- Witness of C7: the servers after the start of their loops, and a read that
fails. -/
theorem server_role_after_shell_exit_witness :
    serverMode { serverInit2 with main := ServerPc.inLoops, reader := ReaderPc.reading,
                                   poller := PollPc.polling }
        (ServerEvent.ptyRead (ReadResult.failed ReadError.other) [])
      = some { serverInit2 with main := ServerPc.inLoops, reader := ReaderPc.finished,
                                poller := PollPc.polling }
    ∧ runServer { serverInit1 with main := ServerPc.inLoops, reader := ReaderPc.reading,
                                     poller := PollPc.polling, wg := 2 }
        ServerEvent.roleReturns = none :=
  have h := server_role_after_shell_exit
    [ServerEvent.sessionOk, ServerEvent.ptyStarted] [ServerEvent.ptyStarted]
    { serverInit2 with main := ServerPc.inLoops, reader := ReaderPc.reading,
                       poller := PollPc.polling }
    { serverInit1 with main := ServerPc.inLoops, reader := ReaderPc.reading,
                       poller := PollPc.polling, wg := 2 }
    (ReadResult.failed ReadError.other) [] (by decide) (by decide) (by decide)
  ⟨h.1.1 rfl, h.2.2.2.2.2.2⟩

/-- Counterexample to C7 as first stated: in the runs where the first read of
the PTY master fails, the read loop is ended, and whatever comes after, the
role has not returned and the PTY has not been closed. -/
theorem server_runs_on_after_shell_exit :
    (∀ es t, runEvents serverMode serverInit2
        ([ServerEvent.sessionOk, ServerEvent.ptyStarted,
          ServerEvent.ptyRead (ReadResult.failed ReadError.other) []] ++ es) = some t →
        t.reader = ReaderPc.finished ∧ t.ptyClosed = false ∧ t.main ≠ ServerPc.returned)
    ∧ (∀ es t, runEvents runServer serverInit1
        ([ServerEvent.ptyStarted,
          ServerEvent.ptyRead (ReadResult.failed ReadError.other) []] ++ es) = some t →
        t.reader = ReaderPc.finished ∧ t.ptyClosed = false ∧ t.main ≠ ServerPc.returned) := by
  constructor
  · intro es t h
    have hinv := serverInv2_reachable _ t h
    refine ⟨?_, hinv.1, hinv.2.1⟩
    rw [runEvents_append] at h
    exact (runEvents_invariant serverMode
      (fun s => ServerInv2 s ∧ s.reader = ReaderPc.finished)
      (fun s e u hs hu => ⟨serverInv2_step s e u hs.1 hu, serverMode_finished s e u hs.1 hs.2 hu⟩)
      _ ⟨serverInv2_reachable [ServerEvent.sessionOk, ServerEvent.ptyStarted,
          ServerEvent.ptyRead (ReadResult.failed ReadError.other) []] _ rfl, rfl⟩ es t h).2
  · intro es t h
    have hinv := serverInv1_reachable _ t h
    refine ⟨?_, hinv.1, hinv.2.1⟩
    rw [runEvents_append] at h
    exact (runEvents_invariant runServer
      (fun s => ServerInv1 s ∧ s.reader = ReaderPc.finished)
      (fun s e u hs hu => ⟨serverInv1_step s e u hs.1 hu, runServer_finished s e u hs.1 hs.2 hu⟩)
      _ ⟨serverInv1_reachable [ServerEvent.ptyStarted,
          ServerEvent.ptyRead (ReadResult.failed ReadError.other) []] _ rfl, rfl⟩ es t h).2

theorem clientInv_init (v : Version) : ClientInv (clientInit v) := by
  cases v <;> simp [ClientInv, clientInit, Client.Restored]

theorem clientInv_step (v : Version) (s : Client) (e : ClientEvent) (t : Client)
    (hs : ClientInv s) (h : clientStep v s e = some t) : ClientInv t := by
  obtain ⟨h1, h2, h3, h4, h5⟩ := hs
  unfold clientStep at h
  split at h
  · cases h
  · rename_i hx
    cases hsv : s.saved with
    | none =>
      have hh := h2 hsv
      cases e <;> cases v <;> simp only [pollFlow_next, pollFlow1_next] at h <;> (try split at h) <;> (try split at h) <;>
        simp_all [ClientInv, Client.Restored, Client.restore] <;>
        (subst h; simp_all)
    | some o =>
      have ho := h3 o hsv
      subst ho
      cases e <;> cases v <;> simp only [pollFlow_next, pollFlow1_next] at h <;> (try split at h) <;> (try split at h) <;>
        simp_all [ClientInv, Client.Restored, Client.restore] <;>
        (subst h; simp_all)

/-- C8: in every run of the client role, of pocv2 `clientMode` as of pocv1
`runClient`, over the events set-up, `term.MakeRaw`, start of the handler and
loops, signal received, restore and `os.Exit` in the handler, reads, poll
passes, return of the function, deferred restore and return of `main`: when
the process has ended after raw mode was acquired, `term.Restore` was called
with the configuration that `term.MakeRaw` had saved, the terminal is back in
that configuration, and the process ended either from the handler past its
restore or after the deferred restore of the function. The invariant that
gives this holds at the start and is kept by every step from any state. -/
theorem raw_mode_restored_at_exit (v : Version) (es : List ClientEvent) (s : Client)
    (code : Nat) (o : TermState)
    (hrun : runEvents (clientStep v) (clientInit v) es = some s)
    (hexit : s.exited = some code) (hraw : s.saved = some o) :
    (o = TermState.original ∧ s.term = TermState.original ∧ o ∈ s.restores
      ∧ (s.handler = HandlerPc.restored ∨ s.main = ClientPc.returned))
    ∧ ClientInv (clientInit v)
    ∧ (∀ a e b, ClientInv a → clientStep v a e = some b → ClientInv b)
    ∧ (∀ a b, clientStep v a ClientEvent.handlerExits = some b →
        a.handler = HandlerPc.restored)
    ∧ (∀ a b, clientStep v a ClientEvent.mainReturns = some b → a.main = ClientPc.returned) := by
  have hinv : ClientInv s :=
    runEvents_invariant (clientStep v) ClientInv (clientInv_step v) _ (clientInv_init v) es s hrun
  obtain ⟨_, _, h3, h4, h5⟩ := hinv
  have hx : s.exited.isSome = true := by rw [hexit]; rfl
  have ho := h3 o hraw
  have hr := h5 (Or.inl hx) o hraw
  refine ⟨⟨ho, ho ▸ hr.1, hr.2, ?_⟩, clientInv_init v, clientInv_step v, ?_, ?_⟩
  · rcases h4 hx with h | h
    · rw [hraw] at h; cases h
    · exact h
  · intro a b h
    unfold clientStep at h
    split at h
    · cases h
    · simp only at h
      split at h
      · assumption
      · cases h
  · intro a b h
    unfold clientStep at h
    split at h
    · cases h
    · simp only at h
      split at h
      · assumption
      · cases h

/-- Witness of C8: a pocv2 client that gets a signal while its loops run. -/
theorem raw_mode_restored_at_exit_witness :
    runEvents clientMode (clientInit Version.pocv2)
        [ClientEvent.sessionOk, ClientEvent.makeRawOk, ClientEvent.loopsStarted,
          ClientEvent.stdinRead (ReadResult.chunk (ascii "l")) [],
          ClientEvent.signalReceived, ClientEvent.handlerRestores, ClientEvent.handlerExits]
      = some { main := ClientPc.inLoops, handler := HandlerPc.restored,
               reader := ReaderPc.reading, poller := PollPc.polling, wg := 0,
               term := TermState.original, saved := some TermState.original,
               restores := [TermState.original], exited := some 1 }
    ∧ TermState.original ∈ [TermState.original] :=
  ⟨by decide,
   (raw_mode_restored_at_exit Version.pocv2
    [ClientEvent.sessionOk, ClientEvent.makeRawOk, ClientEvent.loopsStarted,
      ClientEvent.stdinRead (ReadResult.chunk (ascii "l")) [],
      ClientEvent.signalReceived, ClientEvent.handlerRestores, ClientEvent.handlerExits]
    { main := ClientPc.inLoops, handler := HandlerPc.restored,
      reader := ReaderPc.reading, poller := PollPc.polling, wg := 0,
      term := TermState.original, saved := some TermState.original,
      restores := [TermState.original], exited := some 1 }
    1 TermState.original (by decide) rfl rfl).1.2.2.1⟩

/-! ### The relay -/

theorem storeDelete_head {α : Type} (e : GoString × α) (rest : StoreOf α)
    (hn : ((e :: rest).map Prod.fst).Nodup) : storeDelete (e :: rest) e.1 = rest := by
  simp only [List.map_cons, List.nodup_cons] at hn
  unfold storeDelete
  rw [List.filter_cons]
  simp only [bne_self_eq_false, Bool.false_eq_true, if_false]
  rw [List.filter_eq_self]
  intro a ha
  have : a.1 ≠ e.1 := fun h => hn.1 (h ▸ List.mem_map_of_mem Prod.fst ha)
  simpa using this

theorem snapshot_of_sorted_store {s : Store} {m : Snapshot}
    (hkeys : (s.map Prod.fst).Sorted (· < ·)) (hm : m.Perm (decoded s)) :
    sortedKeys m = s.map Prod.fst ∧ ∀ e ∈ s, m.dataAt e.1 = payloadOf e := by
  have hperm := sortedKeys_perm_store hm
  have hnm : (m.map Prod.fst).Nodup :=
    (hm.map Prod.fst).nodup_iff.mpr (by rw [decoded_keys]; exact hkeys.nodup)
  refine ⟨List.eq_of_perm_of_sorted hperm (sortStrings_sorted _) hkeys.le_of_lt, ?_⟩
  intro e he
  rw [dataAt_perm hm hnm]
  exact dataAt_decoded hkeys.nodup he

theorem payloadOf_encode (k c : GoString) : payloadOf (k, encodeData c) = c := rfl

theorem relayInv_init : RelayInv relayInit := by
  simp [RelayInv, relayInit]

theorem relayInv_push (c c' : Relay) (k chunk : GoString) (hinv : RelayInv c)
    (h : relayStep c (RelayEvent.push k chunk) = some c') : RelayInv c' := by
  obtain ⟨store, lastKey, pushed, written, phase⟩ := c
  obtain ⟨hs, hb, hp⟩ := hinv
  simp only [relayStep] at h
  split at h
  · rename_i hfresh
    cases h
    simp only at hs hb hp
    have hlt : ∀ k' ∈ store.map Prod.fst, k' < k := by
      intro k' hk'
      obtain ⟨l, hl, hle⟩ := hb k' hk'
      subst hl
      have : l < k := by simpa [freshKey] using hfresh
      exact lt_of_le_of_lt hle this
    refine ⟨?_, ?_, ?_⟩
    · simp only [storePush, List.map_append, List.map_cons, List.map_nil]
      unfold List.Sorted
      rw [List.pairwise_append]
      refine ⟨hs, List.pairwise_singleton _ _, ?_⟩
      intro a ha b hb'
      rw [List.mem_singleton] at hb'
      subst hb'
      exact hlt a ha
    · intro k' hk'
      simp only [storePush, List.map_append, List.map_cons, List.map_nil, List.mem_append,
        List.mem_singleton] at hk'
      refine ⟨k, rfl, ?_⟩
      rcases hk' with hk' | hk'
      · exact le_of_lt (hlt k' hk')
      · rw [hk']
    · cases phase with
      | idle =>
        simp only [storePush, List.map_append, List.map_cons, List.map_nil, payloadOf_encode] at hp ⊢
        rw [hp, List.append_assoc]
      | writing m ks =>
        obtain ⟨rem, later, h1, h2, h3, h4⟩ := hp
        refine ⟨rem, later ++ [(k, encodeData chunk)], ?_, h2, h3, ?_⟩
        · simp only [storePush, h1, List.append_assoc]
        · simp only [storePush, List.map_append, List.map_cons, List.map_nil, payloadOf_encode]
          rw [h4, List.append_assoc]
      | deleting m k0 ks =>
        obtain ⟨e, rem, later, w, h1, h2, h3, h4, h5, h6⟩ := hp
        refine ⟨e, rem, later ++ [(k, encodeData chunk)], w, ?_, h2, h3, h4, h5, ?_⟩
        · simp only [storePush, h1, List.cons_append, List.append_assoc]
        · simp only [storePush, List.map_append, List.map_cons, List.map_nil, payloadOf_encode]
          rw [h6, List.append_assoc]
  · cases h

theorem relayInv_consumer (c c' : Relay) (e : RelayEvent) (hinv : RelayInv c)
    (he : e.isPush = false) (h : relayStep c e = some c') : RelayInv c' := by
  obtain ⟨store, lastKey, pushed, written, phase⟩ := c
  obtain ⟨hs, hb, hp⟩ := hinv
  simp only at hs hb hp
  cases e with
  | push k chunk => cases he
  | get r =>
    cases phase with
    | idle =>
      cases r with
      | ok m =>
        simp only [relayStep] at h
        split at h
        · rename_i hperm
          cases h
          obtain ⟨hk, hd⟩ := snapshot_of_sorted_store hs hperm
          exact ⟨hs, hb, store, [], (List.append_nil _).symm, hk.symm, hd, hp⟩
        · cases h
      | error msg =>
        simp only [relayStep] at h
        split at h
        · cases h
          exact ⟨hs, hb, hp⟩
        · cases h
          exact ⟨hs, hb, [], store, rfl, rfl, fun e he => absurd he (List.not_mem_nil e), hp⟩
    | writing m ks => simp [relayStep] at h
    | deleting m k ks => simp [relayStep] at h
  | write =>
    cases phase with
    | idle => simp [relayStep] at h
    | deleting m k ks => simp [relayStep] at h
    | writing m ks =>
      cases ks with
      | nil => simp [relayStep] at h
      | cons k ks =>
        simp only [relayStep, Option.some.injEq] at h
        cases h
        obtain ⟨rem, later, h1, h2, h3, h4⟩ := hp
        cases rem with
        | nil => simp at h2
        | cons e rem =>
          simp only [List.map_cons, List.cons.injEq] at h2
          refine ⟨hs, hb, e, rem, later, written, ?_, h2.1, h2.2, ?_, ?_, h4⟩
          · simpa using h1
          · intro e' he'
            exact h3 e' (List.mem_cons_of_mem _ he')
          · rw [← h2.1, h3 e (List.mem_cons_self _ _)]
  | delete =>
    cases phase with
    | idle => simp [relayStep] at h
    | writing m ks => simp [relayStep] at h
    | deleting m k ks =>
      simp only [relayStep, Option.some.injEq] at h
      cases h
      obtain ⟨e, rem, later, w, h1, h2, h3, h4, h5, h6⟩ := hp
      have hdel : storeDelete store k = rem ++ later := by
        rw [h1, ← h2]
        apply storeDelete_head
        rw [← h1]
        exact hs.nodup
      refine ⟨?_, ?_, rem, later, hdel, h3, h4, ?_⟩
      · simp only [hdel]
        rw [h1] at hs
        exact (List.sorted_cons.mp hs).2
      · intro k' hk'
        simp only [hdel] at hk'
        apply hb k'
        rw [h1]
        exact List.mem_cons_of_mem _ hk'
      · simp only [hdel]
        rw [h6, h5, h1]
        simp
  | sleep =>
    cases phase with
    | idle => simp [relayStep] at h
    | deleting m k ks => simp [relayStep] at h
    | writing m ks =>
      cases ks with
      | cons k ks => simp [relayStep] at h
      | nil =>
        simp only [relayStep, Option.some.injEq] at h
        cases h
        obtain ⟨rem, later, h1, h2, h3, h4⟩ := hp
        exact ⟨hs, hb, h4⟩

theorem relayInv_step (c : Relay) (e : RelayEvent) (c' : Relay) (hinv : RelayInv c)
    (h : relayStep c e = some c') : RelayInv c' := by
  cases hp : e.isPush with
  | false => exact relayInv_consumer c c' e hinv hp h
  | true =>
    cases e with
    | push k chunk => exact relayInv_push c c' k chunk hinv h
    | get r => cases hp
    | write => cases hp
    | delete => cases hp
    | sleep => cases hp

theorem relayInv_written_initial (c : Relay) (hinv : RelayInv c) : c.written <+: c.pushed := by
  obtain ⟨store, lastKey, pushed, written, phase⟩ := c
  obtain ⟨_, _, hp⟩ := hinv
  cases phase with
  | idle => exact ⟨_, hp.symm⟩
  | writing m ks =>
    obtain ⟨rem, later, _, _, _, h4⟩ := hp
    exact ⟨_, h4.symm⟩
  | deleting m k ks =>
    obtain ⟨e, rem, later, w, h1, _, _, _, h5, h6⟩ := hp
    simp only at h1 h5 h6 ⊢
    refine ⟨(rem ++ later).map payloadOf, ?_⟩
    rw [h6, h5, h1]
    simp

theorem caughtUp_consumer (c c' : Relay) (e : RelayEvent) (hinv : RelayInv c)
    (hc : CaughtUp c) (he : e.isPush = false) (h : relayStep c e = some c') :
    CaughtUp c' ∧ c'.pushed = c.pushed := by
  obtain ⟨store, lastKey, pushed, written, phase⟩ := c
  obtain ⟨hs, hb, hp⟩ := hinv
  simp only at hs hb hp
  cases e with
  | push k chunk => cases he
  | get r =>
    cases phase with
    | idle =>
      simp only [CaughtUp] at hc
      subst hc
      cases r with
      | ok m =>
        simp only [relayStep] at h
        split at h
        · rename_i hperm
          cases h
          exact ⟨(snapshot_of_sorted_store hs hperm).1.symm, rfl⟩
        · cases h
      | error msg =>
        simp only [relayStep] at h
        split at h
        · cases h
          exact ⟨rfl, rfl⟩
        · cases h
          exact ⟨rfl, rfl⟩
    | writing m ks => simp [relayStep] at h
    | deleting m k ks => simp [relayStep] at h
  | write =>
    cases phase with
    | idle => simp [relayStep] at h
    | deleting m k ks => simp [relayStep] at h
    | writing m ks =>
      cases ks with
      | nil => simp [relayStep] at h
      | cons k ks =>
        simp only [relayStep, Option.some.injEq] at h
        cases h
        exact ⟨hc, rfl⟩
  | delete =>
    cases phase with
    | idle => simp [relayStep] at h
    | writing m ks => simp [relayStep] at h
    | deleting m k ks =>
      simp only [relayStep, Option.some.injEq] at h
      cases h
      obtain ⟨e, rem, later, w, h1, h2, h3, h4, h5, h6⟩ := hp
      have hdel : storeDelete store k = rem ++ later := by
        rw [h1, ← h2]
        apply storeDelete_head
        rw [← h1]
        exact hs.nodup
      refine ⟨?_, rfl⟩
      simp only [CaughtUp] at hc ⊢
      rw [hdel]
      rw [h1, List.map_cons, List.cons.injEq] at hc
      exact hc.2
  | sleep =>
    cases phase with
    | idle => simp [relayStep] at h
    | deleting m k ks => simp [relayStep] at h
    | writing m ks =>
      cases ks with
      | cons k ks => simp [relayStep] at h
      | nil =>
        simp only [relayStep, Option.some.injEq] at h
        cases h
        simp only [CaughtUp] at hc ⊢
        exact ⟨List.map_eq_nil_iff.mp hc, trivial⟩

theorem caughtUp_get (c c' : Relay) (m : Snapshot) (hinv : RelayInv c)
    (h : relayStep c (RelayEvent.get (GetResultOf.ok m)) = some c') :
    CaughtUp c' ∧ c'.pushed = c.pushed := by
  obtain ⟨store, lastKey, pushed, written, phase⟩ := c
  obtain ⟨hs, _, _⟩ := hinv
  cases phase with
  | idle =>
    simp only [relayStep] at h
    split at h
    · rename_i hperm
      cases h
      exact ⟨(snapshot_of_sorted_store hs hperm).1.symm, rfl⟩
    · cases h
  | writing m ks => simp [relayStep] at h
  | deleting m k ks => simp [relayStep] at h

theorem pushed_consumer (c c' : Relay) (e : RelayEvent) (he : e.isPush = false)
    (h : relayStep c e = some c') : c'.pushed = c.pushed := by
  obtain ⟨store, lastKey, pushed, written, phase⟩ := c
  cases e with
  | push k chunk => cases he
  | get r =>
    cases phase with
    | idle =>
      cases r with
      | ok m =>
        simp only [relayStep] at h
        split at h <;> cases h
        rfl
      | error msg =>
        simp only [relayStep] at h
        split at h <;> cases h <;> rfl
    | writing m ks => simp [relayStep] at h
    | deleting m k ks => simp [relayStep] at h
  | write =>
    cases phase with
    | idle => simp [relayStep] at h
    | deleting m k ks => simp [relayStep] at h
    | writing m ks =>
      cases ks with
      | nil => simp [relayStep] at h
      | cons k ks =>
        simp only [relayStep, Option.some.injEq] at h
        cases h
        rfl
  | delete =>
    cases phase with
    | idle => simp [relayStep] at h
    | writing m ks => simp [relayStep] at h
    | deleting m k ks =>
      simp only [relayStep, Option.some.injEq] at h
      cases h
      rfl
  | sleep =>
    cases phase with
    | idle => simp [relayStep] at h
    | deleting m k ks => simp [relayStep] at h
    | writing m ks =>
      cases ks with
      | cons k ks => simp [relayStep] at h
      | nil =>
        simp only [relayStep, Option.some.injEq] at h
        cases h
        rfl

theorem consumer_run (es : List RelayEvent) (c c' : Relay) (hinv : RelayInv c)
    (hn : noPush es = true) (h : runEvents relayStep c es = some c') :
    RelayInv c' ∧ c'.pushed = c.pushed ∧ (CaughtUp c → CaughtUp c') := by
  induction es generalizing c with
  | nil =>
    simp only [runEvents, Option.some.injEq] at h
    subst h
    exact ⟨hinv, rfl, id⟩
  | cons e es ih =>
    simp only [noPush, List.all_cons, Bool.and_eq_true, Bool.not_eq_true'] at hn
    simp only [runEvents] at h
    cases hst : relayStep c e with
    | none => simp [hst] at h
    | some u =>
      rw [hst] at h
      have hu := relayInv_step c e u hinv hst
      obtain ⟨a1, a2, a3⟩ := ih u hu (by simpa [noPush] using hn.2) h
      refine ⟨a1, a2.trans (pushed_consumer c u e hn.1 hst), ?_⟩
      intro hc
      exact a3 (caughtUp_consumer c u e hinv hc hn.1 hst).1

theorem caughtUp_idle (c : Relay) (hinv : RelayInv c) (hc : CaughtUp c)
    (hi : c.phase = Phase.idle) : c.written = c.pushed ∧ c.store = [] := by
  obtain ⟨store, lastKey, pushed, written, phase⟩ := c
  simp only at hi
  subst hi
  obtain ⟨_, _, hp⟩ := hinv
  simp only [CaughtUp] at hc
  subst hc
  simp only [List.map_nil, List.append_nil] at hp
  exact ⟨hp.symm, rfl⟩

theorem noPush_restOfRange (ks : List GoString) : noPush (restOfRange ks) = true := by
  induction ks with
  | nil => rfl
  | cons k ks ih =>
    simp only [restOfRange, List.flatMap_cons, List.append_assoc] at ih ⊢
    simp [noPush, RelayEvent.isPush]

theorem noPush_finishPass (ph : Phase) : noPush (finishPass ph) = true := by
  cases ph with
  | idle => rfl
  | writing m ks => exact noPush_restOfRange ks
  | deleting m k ks =>
    have := noPush_restOfRange ks
    simpa [finishPass, noPush, RelayEvent.isPush] using this

theorem restOfRange_runs (m : Snapshot) (ks : List GoString) (c : Relay)
    (hph : c.phase = Phase.writing m ks) :
    ∃ c', runEvents relayStep c (restOfRange ks) = some c' ∧ c'.phase = Phase.idle := by
  induction ks generalizing c with
  | nil =>
    obtain ⟨store, lastKey, pushed, written, phase⟩ := c
    simp only at hph
    subst hph
    exact ⟨_, rfl, rfl⟩
  | cons k ks ih =>
    obtain ⟨store, lastKey, pushed, written, phase⟩ := c
    simp only at hph
    subst hph
    obtain ⟨c', h1, h2⟩ := ih
      { store := storeDelete store k, lastKey := lastKey, pushed := pushed,
        written := written ++ [m.dataAt k], phase := Phase.writing m ks } rfl
    exact ⟨c', h1, h2⟩

/-- Left alone, the consumer of the relay does in its range loop what
`writeLoop` does. -/
theorem relay_range_eq_writeLoop (m : Snapshot) (ks : List GoString) (c : Relay)
    (hph : c.phase = Phase.writing m ks) :
    runEvents relayStep c (restOfRange ks)
      = some { c with store := (writeLoop m ks c.store).2,
                      written := c.written ++ writesOf (writeLoop m ks c.store).1,
                      phase := Phase.idle } := by
  induction ks generalizing c with
  | nil =>
    obtain ⟨store, lastKey, pushed, written, phase⟩ := c
    simp only at hph
    subst hph
    simp [restOfRange, runEvents, relayStep, writeLoop, writesOf]
  | cons k ks ih =>
    obtain ⟨store, lastKey, pushed, written, phase⟩ := c
    simp only at hph
    subst hph
    have h := ih
      { store := storeDelete store k, lastKey := lastKey, pushed := pushed,
        written := written ++ [m.dataAt k], phase := Phase.writing m ks } rfl
    have hstep : runEvents relayStep
        { store := store, lastKey := lastKey, pushed := pushed, written := written,
          phase := Phase.writing m (k :: ks) } (restOfRange (k :: ks))
        = runEvents relayStep
          { store := storeDelete store k, lastKey := lastKey, pushed := pushed,
            written := written ++ [m.dataAt k], phase := Phase.writing m ks }
          (restOfRange ks) := rfl
    rw [hstep, h]
    simp [writeLoop, writesOf]

/-- A pass of the consumer of the relay that no push falls into is a pass of
`pollOnce`. -/
theorem relay_pass_eq_pollOnce (m : Snapshot) (c : Relay) (hph : c.phase = Phase.idle)
    (hm : m.Perm (decoded c.store)) :
    runEvents relayStep c (RelayEvent.get (GetResultOf.ok m) :: restOfRange (sortedKeys m))
      = some { c with store := (pollOnce (GetResultOf.ok m) c.store).2,
                      written := c.written ++ writesOf (pollOnce (GetResultOf.ok m) c.store).1,
                      phase := Phase.idle } := by
  obtain ⟨store, lastKey, pushed, written, phase⟩ := c
  simp only at hph hm
  subst hph
  simp only [runEvents, relayStep, hm, if_true]
  exact relay_range_eq_writeLoop m (sortedKeys m) _ rfl

theorem finishPass_runs (c : Relay) :
    ∃ c', runEvents relayStep c (finishPass c.phase) = some c' ∧ c'.phase = Phase.idle := by
  obtain ⟨store, lastKey, pushed, written, phase⟩ := c
  cases phase with
  | idle => exact ⟨_, rfl, rfl⟩
  | writing m ks => exact restOfRange_runs m ks _ rfl
  | deleting m k ks =>
    obtain ⟨c', h1, h2⟩ := restOfRange_runs m ks
      { store := storeDelete store k, lastKey := lastKey, pushed := pushed,
        written := written, phase := Phase.writing m ks } rfl
    exact ⟨c', h1, h2⟩

theorem relay_catches_up (c c2 : Relay) (pre post : List RelayEvent) (m : Snapshot)
    (hinv : RelayInv c) (hpre : noPush pre = true) (hpost : noPush post = true)
    (hrun : runEvents relayStep c (pre ++ RelayEvent.get (GetResultOf.ok m) :: post) = some c2)
    (hidle : c2.phase = Phase.idle) :
    c2.written = c2.pushed ∧ c2.pushed = c.pushed ∧ c2.store = [] := by
  rw [runEvents_append] at hrun
  cases h1 : runEvents relayStep c pre with
  | none => simp [h1] at hrun
  | some c1 =>
    rw [h1] at hrun
    simp only [runEvents] at hrun
    obtain ⟨i1, p1, _⟩ := consumer_run pre c c1 hinv hpre h1
    cases hg : relayStep c1 (RelayEvent.get (GetResultOf.ok m)) with
    | none => simp [hg] at hrun
    | some cg =>
      rw [hg] at hrun
      have ig := relayInv_step c1 _ cg i1 hg
      obtain ⟨cu, pg⟩ := caughtUp_get c1 cg m i1 hg
      obtain ⟨i2, p2, cu2⟩ := consumer_run post cg c2 ig hpost hrun
      obtain ⟨hw, hst⟩ := caughtUp_idle c2 i2 (cu2 cu) hidle
      exact ⟨hw, p2.trans (pg.trans p1), hst⟩

/-- C1: a producer pushes chunks to a store location whose keys ascend in push
order, while a consumer runs the poll loop of pocv2 on it, each `Get` that
succeeds seeing the store as it is at that instant, and the pushes fall
anywhere between the steps of the consumer (get, write, delete, sleep). At
every point of every such run the chunks written are a beginning of the chunks
pushed, in push order. When, with no further push, the consumer goes on through
a `Get` that succeeds and to the end of a pass, the chunks written are exactly
the chunks pushed and the store is empty; and the consumer can always do so. -/
theorem relay_preserves_order (es : List RelayEvent) (c : Relay)
    (hrun : runEvents relayStep relayInit es = some c) :
    c.written <+: c.pushed
    ∧ (∀ (pre post : List RelayEvent) (m : Snapshot) (c2 : Relay),
        noPush pre = true → noPush post = true →
        runEvents relayStep c (pre ++ RelayEvent.get (GetResultOf.ok m) :: post) = some c2 →
        c2.phase = Phase.idle →
        c2.written = c.pushed ∧ c2.pushed = c.pushed ∧ c2.store = [])
    ∧ (∃ (pre post : List RelayEvent) (m : Snapshot) (c2 : Relay),
        noPush pre = true ∧ noPush post = true
        ∧ runEvents relayStep c (pre ++ RelayEvent.get (GetResultOf.ok m) :: post) = some c2
        ∧ c2.phase = Phase.idle ∧ c2.written = c.pushed) := by
  have hinv : RelayInv c :=
    runEvents_invariant relayStep RelayInv relayInv_step _ relayInv_init es c hrun
  have hall : ∀ (pre post : List RelayEvent) (m : Snapshot) (c2 : Relay),
      noPush pre = true → noPush post = true →
      runEvents relayStep c (pre ++ RelayEvent.get (GetResultOf.ok m) :: post) = some c2 →
      c2.phase = Phase.idle →
      c2.written = c.pushed ∧ c2.pushed = c.pushed ∧ c2.store = [] := by
    intro pre post m c2 hpre hpost h hidle
    obtain ⟨a1, a2, a3⟩ := relay_catches_up c c2 pre post m hinv hpre hpost h hidle
    exact ⟨a1.trans a2, a2, a3⟩
  refine ⟨relayInv_written_initial c hinv, hall, ?_⟩
  obtain ⟨c1, r1, i1⟩ := finishPass_runs c
  have hg : relayStep c1 (RelayEvent.get (GetResultOf.ok (decoded c1.store)))
      = some { c1 with phase := Phase.writing (decoded c1.store) (sortedKeys (decoded c1.store)) } := by
    obtain ⟨store, lastKey, pushed, written, phase⟩ := c1
    simp only at i1
    subst i1
    simp [relayStep]
  obtain ⟨c2, r2, i2⟩ := restOfRange_runs (decoded c1.store) (sortedKeys (decoded c1.store))
    { c1 with phase := Phase.writing (decoded c1.store) (sortedKeys (decoded c1.store)) } rfl
  have hfull : runEvents relayStep c (finishPass c.phase
      ++ RelayEvent.get (GetResultOf.ok (decoded c1.store))
        :: restOfRange (sortedKeys (decoded c1.store))) = some c2 := by
    rw [runEvents_append, r1]
    simp only [runEvents, hg]
    exact r2
  exact ⟨_, _, _, c2, noPush_finishPass _, noPush_restOfRange _, hfull, i2,
    (hall _ _ _ c2 (noPush_finishPass _) (noPush_restOfRange _) hfull i2).1⟩

/-- Witness of C1: a second push falls between the write and the delete of the
first chunk; the pass then under way writes only the first chunk, and the next
pass writes the second. -/
theorem relay_preserves_order_witness :
    ([ascii "a"] : List GoString) <+: [ascii "a", ascii "b"]
    ∧ runEvents relayStep
        { store := [(ascii "k2", encodeData (ascii "b"))], lastKey := some (ascii "k2"),
          pushed := [ascii "a", ascii "b"], written := [ascii "a"], phase := Phase.idle }
        ([] ++ RelayEvent.get (GetResultOf.ok [(ascii "k2", ⟨ascii "b"⟩)])
          :: [RelayEvent.write, RelayEvent.delete, RelayEvent.sleep])
      = some { store := [], lastKey := some (ascii "k2"), pushed := [ascii "a", ascii "b"],
               written := [ascii "a", ascii "b"], phase := Phase.idle } :=
  have h := relay_preserves_order
    [RelayEvent.push (ascii "k1") (ascii "a"),
      RelayEvent.get (GetResultOf.ok [(ascii "k1", ⟨ascii "a"⟩)]),
      RelayEvent.write,
      RelayEvent.push (ascii "k2") (ascii "b"),
      RelayEvent.delete, RelayEvent.sleep]
    { store := [(ascii "k2", encodeData (ascii "b"))], lastKey := some (ascii "k2"),
      pushed := [ascii "a", ascii "b"], written := [ascii "a"], phase := Phase.idle }
    (by decide)
  ⟨h.1, by decide⟩

end JConnect
